import Mathlib

/-!
Verification of the KVIN serialization library (src/kvin.js) against its
natural-language specification.  The development is a shallow embedding of
the relevant parts of the source: JavaScript numbers are modelled by an
inductive `JSNum` that keeps the IEEE special values (NaN, the infinities
and negative zero) distinct and carries finite values as integers,
JavaScript strings are Lean `String`s, fallible code returns `Except`,
and object graphs are modelled as explicit heaps of plain objects with
addresses.  Each section names the source function it embeds.
-/

set_option maxRecDepth 4096

namespace Kvin

/-- JavaScript numbers, with the special values that plain JSON cannot
represent kept distinct.  Finite nonzero doubles are carried as integers:
their payload is inert in every code path the claims exercise. -/
inductive JSNum where
  | nan
  | inf
  | ninf
  | negZero
  | fin (i : Int)
deriving DecidableEq, Repr

/-- `Number.isFinite`: true exactly for finite numbers; note that JavaScript
considers `-0` finite. -/
def jsIsFinite : JSNum → Bool
  | .fin _ => true
  | .negZero => true
  | _ => false

/-- `n + ''` on a non-finite JavaScript number. -/
def jsNumToString : JSNum → String
  | .nan => "NaN"
  | .inf => "Infinity"
  | .ninf => "-Infinity"
  | .negZero => "0"
  | .fin i => toString i

/-! ### Decimal digit strings (used by the bigint codec, `BigInt`/`toString`) -/

/-- One decimal digit as a character. -/
def digitOfVal : Nat → Char
  | 0 => '0' | 1 => '1' | 2 => '2' | 3 => '3' | 4 => '4'
  | 5 => '5' | 6 => '6' | 7 => '7' | 8 => '8' | _ => '9'

/-- Numeric value of a decimal digit character. -/
def valOfDigit (c : Char) : Nat := c.toNat - 48

/-- Is `c` one of the characters `0`-`9`? -/
def isDecDigit (c : Char) : Bool := 48 ≤ c.toNat && c.toNat ≤ 57

/-- Decimal digits of `n`, most significant first, with structural fuel
(any fuel above `n` computes the digits; `natToDigits` supplies `n + 1`). -/
def natToDigitsAux : Nat → Nat → List Char
  | 0, _ => []
  | fuel + 1, n =>
      if n < 10 then [digitOfVal n]
      else natToDigitsAux fuel (n / 10) ++ [digitOfVal (n % 10)]

/-- Decimal digit list of a natural number, most significant digit first
(the digit sequence produced by `BigInt.prototype.toString`). -/
def natToDigits (n : Nat) : List Char := natToDigitsAux (n + 1) n

/-- Read a decimal digit list back into a natural number. -/
def digitsToNat (l : List Char) : Nat :=
  l.foldl (fun a c => a * 10 + valOfDigit c) 0

theorem valOfDigit_digitOfVal {d : Nat} (h : d < 10) :
    valOfDigit (digitOfVal d) = d := by
  interval_cases d <;> rfl

theorem digitsToNat_append_digit (l : List Char) (c : Char) :
    digitsToNat (l ++ [c]) = digitsToNat l * 10 + valOfDigit c := by
  simp [digitsToNat, List.foldl_append]

theorem digitsToNat_natToDigitsAux :
    ∀ fuel n, n < fuel → digitsToNat (natToDigitsAux fuel n) = n := by
  intro fuel
  induction fuel with
  | zero => intro n h; omega
  | succ fuel ih =>
      intro n h
      rw [natToDigitsAux]
      by_cases h10 : n < 10
      · simp [h10, digitsToNat, valOfDigit_digitOfVal h10]
      · have hdiv : n / 10 < fuel := by
          have hlt : n / 10 < n := Nat.div_lt_self (by omega) (by omega)
          omega
        simp only [h10, if_false]
        rw [digitsToNat_append_digit, ih (n / 10) hdiv,
            valOfDigit_digitOfVal (Nat.mod_lt _ (by omega))]
        omega

theorem digitsToNat_natToDigits (n : Nat) :
    digitsToNat (natToDigits n) = n :=
  digitsToNat_natToDigitsAux (n + 1) n (by omega)

theorem natToDigits_ne_nil (n : Nat) : natToDigits n ≠ [] := by
  unfold natToDigits
  rw [natToDigitsAux]
  by_cases h : n < 10 <;> simp [h]

theorem isDecDigit_digitOfVal (d : Nat) : isDecDigit (digitOfVal d) = true := by
  unfold digitOfVal
  split <;> rfl

theorem natToDigitsAux_all_digits :
    ∀ fuel n, (natToDigitsAux fuel n).all isDecDigit = true := by
  intro fuel
  induction fuel with
  | zero => intro n; rfl
  | succ fuel ih =>
      intro n
      rw [natToDigitsAux]
      by_cases h : n < 10
      · simp [h, isDecDigit_digitOfVal]
      · simp only [h, if_false, List.all_append, List.all_cons, List.all_nil]
        simp [ih (n / 10), isDecDigit_digitOfVal]

theorem natToDigits_all_digits (n : Nat) :
    (natToDigits n).all isDecDigit = true :=
  natToDigitsAux_all_digits (n + 1) n

/-- `BigInt.prototype.toString` (decimal, `-` sign for negatives). -/
def bigintToString (i : Int) : String :=
  if i < 0 then String.mk ('-' :: natToDigits (-i).toNat)
  else String.mk (natToDigits i.toNat)

/-- The `BigInt(string)` constructor on decimal strings: an optional `-`
sign followed by decimal digits; anything else raises a `SyntaxError`
(modelled as `Except.error`). -/
def parseBigInt (s : String) : Except String Int :=
  match s.data with
  | [] => .error "SyntaxError: Cannot convert string to a BigInt"
  | c :: rest =>
      if c = '-' then
        if rest ≠ [] ∧ rest.all isDecDigit then .ok (-(digitsToNat rest : Int))
        else .error "SyntaxError: Cannot convert string to a BigInt"
      else if (c :: rest).all isDecDigit then .ok (digitsToNat (c :: rest) : Int)
      else .error "SyntaxError: Cannot convert string to a BigInt"

theorem parseBigInt_bigintToString (i : Int) :
    parseBigInt (bigintToString i) = .ok i := by
  unfold bigintToString
  by_cases h : i < 0
  · have hne : natToDigits (-i).toNat ≠ [] := natToDigits_ne_nil _
    have hall : (natToDigits (-i).toNat).all isDecDigit = true := natToDigits_all_digits _
    simp only [h, if_true, parseBigInt, hne, hall, ne_eq, not_false_iff, and_self,
      if_true, digitsToNat_natToDigits]
    congr 1
    omega
  · have hne : natToDigits i.toNat ≠ [] := natToDigits_ne_nil _
    have hall : (natToDigits i.toNat).all isDecDigit = true := natToDigits_all_digits _
    cases hl : natToDigits i.toNat with
    | nil => exact absurd hl hne
    | cons c rest =>
      have hcd : isDecDigit c = true := by
        rw [hl] at hall
        simp only [List.all_cons, Bool.and_eq_true] at hall
        exact hall.1
      have hcne : c ≠ '-' := by
        intro hcc
        rw [hcc] at hcd
        simp [isDecDigit] at hcd
      rw [hl] at hall
      simp only [h, if_false, parseBigInt, hl, hcne, hall, if_true, if_false]
      rw [← hl, digitsToNat_natToDigits]
      congr 1
      omega

/-! ### Scalar values and their wire nodes

Embeds the numeric paths of `prepare` (src/kvin.js lines 601-605),
`prepare$number` (978-990), `prepare$bigint`, `unprepare$number` (363-365),
`unprepare$bigint` (359-361), the `number` / `bigint` / `json` / bare-scalar
cases of `unprepare` (212-257, 273-275), and the version envelope
`marshal` / `unmarshal` (1011-1013, 1089-1111).  The `JSON.stringify` /
`JSON.parse` step between `serialize` and `deserialize` is the identity on
these wire nodes, so `deserialize ∘ serialize` is modelled as
`unmarshal ∘ marshal`. -/

/-- Top-level scalar values exercised by the numeric round-trip claims. -/
inductive SV where
  | num (n : JSNum)
  | big (i : Int)
deriving DecidableEq, Repr

/-- Scalar prepared nodes: a bare JSON number, or one of the sentinel-tag
objects emitted by the numeric encoders. -/
inductive SNode where
  | bare (i : Int)
  | number (s : String)
  | json (s : String)
  | bigint (s : String)
deriving DecidableEq, Repr

/-- `1/n === -Infinity`, the negative-zero test in `prepare$number`. -/
def jsRecipIsNegInf : JSNum → Bool
  | .negZero => true
  | _ => false

/-- Obtain the bare wire form of a finite, non-negative-zero number
(the `return n` at the end of `prepare$number`). -/
def jsBareOf : JSNum → SNode
  | .fin i => .bare i
  | _ => .bare 0

/-- `prepare$number` (src/kvin.js 982-990): non-finite numbers become
a tag `number: n + ''`, negative zero becomes a tag `json: "-0"`,
every other number is returned bare. -/
def prepare_number (n : JSNum) : SNode :=
  if ¬ jsIsFinite n then .number (jsNumToString n)
  else if jsRecipIsNegInf n then .json "-0"
  else jsBareOf n

/-- `prepare$bigint` (src/kvin.js 978-980). -/
def prepare_bigint (i : Int) : SNode := .bigint (bigintToString i)

/-- `parseFloat` restricted to the token shapes that reach
`unprepare$number`: the three non-finite spellings, `-0`, and decimal
integers; any other string parses to NaN (as `parseFloat` does on
unparsable input).  Decimal fractions and exponents are not modelled:
the encoder only ever emits the three non-finite spellings here. -/
def jsParseFloat (s : String) : JSNum :=
  if s = "NaN" then .nan
  else if s = "Infinity" then .inf
  else if s = "-Infinity" then .ninf
  else if s = "-0" then .negZero
  else match parseBigInt s with
    | .ok i => .fin i
    | .error _ => .nan

/-- `unprepare$number` (src/kvin.js 363-365). -/
def unprepare_number (s : String) : JSNum := jsParseFloat s

/-- `JSON.parse` on the numeric literal carried by a `json` node; the only
literal the encoder emits is `"-0"`, which parses to negative zero. -/
def jsonParseNum (s : String) : Except String JSNum :=
  if s = "-0" then .ok .negZero
  else match parseBigInt s with
    | .ok i => .ok (.fin i)
    | .error _ => .error "SyntaxError: Unexpected token in JSON"

/-- The scalar cases of `unprepare` (src/kvin.js 212-294): bare scalars are
returned as-is; `number`, `bigint` and `json` tags dispatch to their
decoders. -/
def unprepareScalar : SNode → Except String SV
  | .bare i => .ok (.num (.fin i))
  | .number s => .ok (.num (unprepare_number s))
  | .json s => do
      let n ← jsonParseNum s
      .ok (.num n)
  | .bigint s => do
      let i ← parseBigInt s
      .ok (.big i)

/-- The numeric dispatch at the top of `prepare` (src/kvin.js 601-605). -/
def prepareScalar : SV → SNode
  | .num n => prepare_number n
  | .big i => prepare_bigint i

/-- The current wire version, `KVIN.prototype.serializeVerId`. -/
def serializeVerId : String := "v7"

/-- The version tags accepted by `unmarshal` (the `switch` in
src/kvin.js 1101-1109). -/
def supportedVerIds : List String := ["v4", "v5", "v6", "v7"]

/-- A wire envelope: the optional `_serializeVerId` property (absent when
the parsed object lacks the field) and the `what` payload. -/
structure Envelope (α : Type) where
  verId : Option String
  what : α
deriving Repr

/-- `unmarshal` (src/kvin.js 1089-1111): reject when the version field is
absent, reject version tags outside the supported set, otherwise
reconstruct the payload with `unprepare`.  No value is constructed on the
failure paths: `unprep` is never invoked there. -/
def unmarshal {α β : Type} (unprep : α → Except String β) (obj : Envelope α) :
    Except String β :=
  match obj.verId with
  | none => .error "Invalid serialization format"
  | some v =>
      if v ∈ supportedVerIds then unprep obj.what
      else .error ("Cannot unmarshal " ++ v ++ " objects - please update Kvin")

/-- `marshal` (src/kvin.js 1011-1013) for scalar payloads. -/
def marshalScalar (x : SV) : Envelope SNode :=
  ⟨some serializeVerId, prepareScalar x⟩

/-- `deserialize(serialize(x))` for scalar payloads; the intermediate JSON
text step is the identity on these nodes. -/
def roundTripScalar (x : SV) : Except String SV :=
  unmarshal unprepareScalar (marshalScalar x)

/-! ### Constructor resolution and validation

Embeds the `ctr` validation at the top of `unprepare` (src/kvin.js 219-237)
and the constructor resolution of `unprepare$object` (296-333).  The wire
universe here contains constructed-object nodes and scalar leaves; back
references (`seen` nodes) live in the `Graph` namespace, so the visited
table — irrelevant to constructor validation — is not threaded here. -/

namespace Ctor

/-- Scalar leaves for constructed-object property values. -/
inductive Lit where
  | num (n : JSNum)
  | str (s : String)
  | bool (b : Bool)
deriving DecidableEq, Repr

/-- The runtime type of a `ctr` field: a string name, a number, or a value
of some other `typeof` (carried by name, e.g. "boolean"). -/
inductive CtrLabel where
  | str (s : String)
  | num (n : JSNum)
  | other (tyName : String)
deriving DecidableEq, Repr

/-- Prepared nodes for this namespace: a constructed-object node
(`ctr` + optional `arg` + property map) or a bare scalar. -/
inductive PNodeC where
  | bare (l : Lit)
  | ctrNode (c : CtrLabel) (arg : Option Lit) (ps : List (String × PNodeC))

/-- A reconstructed value: a constructed object carrying its constructor
name, constructor argument and copied-on properties, or a scalar. -/
inductive CVal where
  | obj (ctorName : String) (arg : Option Lit) (ps : List (String × CVal))
  | lit (l : Lit)

/-- The names of `KVIN.prototype.ctors` (src/kvin.js 176-198) in table
order, with `URL` appended as in hosts that define it. -/
def ctors : List String :=
  ["Object", "Int8Array", "Uint8Array", "Uint8ClampedArray", "Int16Array",
   "Uint16Array", "Int32Array", "Uint32Array", "Float32Array", "Float64Array",
   "RegExp", "Number", "String", "Boolean", "Array", "Function", "Error",
   "Promise", "URL"]

/-- Character class `[A-Za-z_0-9$]` of the validation regex in
`unprepare` (src/kvin.js 222). -/
def isCtorNameChar (c : Char) : Bool :=
  (('A' ≤ c && c ≤ 'Z') || ('a' ≤ c && c ≤ 'z') || ('0' ≤ c && c ≤ '9') ||
   c = '_' || c = '$')

/-- The code's validation pattern `^[A-Za-z_0-9$][A-Za-z_0-9$]*$`
(src/kvin.js 222): one or more name characters, digits allowed in first
position. -/
def matchesCtorNameRe (s : String) : Bool :=
  !s.data.isEmpty && s.data.all isCtorNameChar

/-- The character class `[A-Za-z_$]` (no digits). -/
def isIdentStartChar (c : Char) : Bool :=
  (('A' ≤ c && c ≤ 'Z') || ('a' ≤ c && c ≤ 'z') || c = '_' || c = '$')

/-- Modelled from the spec: the identifier pattern
`^[A-Za-z_$][A-Za-z0-9_$]*$` that the specification says constructor names
are validated against.  Defined only to compare the code's behaviour with
the spec's words: the code's actual pattern is `matchesCtorNameRe`. -/
def matchesSpecIdentRe (s : String) : Bool :=
  match s.data with
  | [] => false
  | c :: rest => isIdentStartChar c && rest.all isCtorNameChar

/-- The pattern `^[1-9][0-9]*$` used by `unprepare$object`
(src/kvin.js 300) to recognize string-typed constructor indices. -/
def matchesIndexRe (s : String) : Bool :=
  match s.data with
  | [] => false
  | c :: rest => ('1' ≤ c && c ≤ '9') && rest.all (fun d => '0' ≤ d && d ≤ '9')

/-- Is every character a decimal digit (an all-digit string such as "0" or
"007" is a valid JavaScript expression evaluating to a number)? -/
def isAllDigitString (s : String) : Bool :=
  !s.data.isEmpty && s.data.all isDecDigit

/-- `po.ctr >= 0` under JavaScript comparison semantics (false for NaN). -/
def jsGEZero : JSNum → Bool
  | .nan => false
  | .inf => true
  | .ninf => false
  | .negZero => true
  | .fin i => 0 ≤ i

/-- `po.ctr < len` under JavaScript comparison semantics
(false for NaN and Infinity). -/
def jsLtNat (n : JSNum) (len : Nat) : Bool
  := match n with
  | .nan => false
  | .inf => false
  | .ninf => true
  | .negZero => 0 < len
  | .fin i => i < (len : Int)

/-- Array indexing `ctors[n]` with a JavaScript number key; `-0` indexes
element 0. -/
def ctorsAtNum (n : JSNum) : Option String :=
  match n with
  | .negZero => ctors.get? 0
  | .fin i => if 0 ≤ i then ctors.get? i.toNat else none
  | _ => none

/-- `eval(name)` on a pre-validated constructor-name string, returning the
named global constructor: a `ReferenceError` for syntactic identifiers that
name no global, a number (not a constructor, `none`) for all-digit strings,
and a `SyntaxError` otherwise (digit-led mixed strings are not valid
expressions). -/
def evalCtorName (s : String) : Except String (Option String) :=
  if s ∈ ctors then .ok (some s)
  else if matchesSpecIdentRe s then .error ("ReferenceError: " ++ s ++ " is not defined")
  else if isAllDigitString s then .ok none
  else .error "SyntaxError: Invalid or unexpected token"

/-- Resolve the constructor of `unprepare$object` (src/kvin.js 300-307):
string labels not matching `^[1-9][0-9]*$` go through `userCtors` and then
`eval`; other labels index `this.ctors`. -/
def resolveConstructor (userCtors : List String) (c : CtrLabel) :
    Except String (Option String) :=
  match c with
  | .str s =>
      if ¬ matchesIndexRe s then
        if s ∈ userCtors then .ok (some s)
        else evalCtorName s
      else .ok (ctors.get? (digitsToNat s.data))
  | .num n => .ok (ctorsAtNum n)
  | .other _ => .ok none

/-- The `ctr` validation switch at the top of `unprepare`
(src/kvin.js 219-237). -/
def validateCtr (allowlist : Option (List String)) (c : CtrLabel) :
    Except String Unit :=
  match c with
  | .str s =>
      if ¬ matchesCtorNameRe s then
        if allowlist.isSome ∧ s ∉ allowlist.getD [] then
          .error ("Allowlist does not include constructor " ++ s)
        else .error ("Invalid constructor name: " ++ s)
      else .ok ()
  | .num n =>
      if ¬ (jsGEZero n && jsLtNat n ctors.length) then
        .error ("Invalid constructor number: " ++ jsNumToString n)
      else .ok ()
  | .other tyName => .error ("Invalid constructor label type " ++ tyName)

/-- Delete the `stack` / `lineNumber` / `fileName` properties, the
`po.ctr === 'Error'` special case of `unprepare$object`
(src/kvin.js 315-320); a freshly constructed object carries none of them. -/
def deleteErrorDiagProps : CVal → CVal
  | .obj n a ps =>
      .obj n a (ps.filter (fun kv =>
        kv.1 ≠ "stack" && kv.1 ≠ "lineNumber" && kv.1 ≠ "fileName"))
  | v => v

mutual

/-- `unprepare` restricted to this namespace's wire universe
(src/kvin.js 212-294): scalars are returned as-is; nodes with a `ctr`
property are validated and dispatched to `unprepare$object`. -/
def unprepareC (userCtors : List String) (allowlist : Option (List String)) :
    PNodeC → Except String CVal
  | .bare l => .ok (.lit l)
  | .ctrNode c arg ps => do
      let () ← validateCtr allowlist c
      let ctorOpt ← resolveConstructor userCtors c
      match ctorOpt with
      | none => .error "TypeError: constructor is not a constructor"
      | some name => do
          let o : CVal := .obj name arg []
          let o := if c = .str "Error" then deleteErrorDiagProps o else o
          let psv ← unprepareCProps userCtors allowlist ps
          match o with
          | .obj n a _ => .ok (.obj n a psv)
          | v => .ok v

/-- The property-copy loop of `unprepare$object` (src/kvin.js 324-330). -/
def unprepareCProps (userCtors : List String) (allowlist : Option (List String)) :
    List (String × PNodeC) → Except String (List (String × CVal))
  | [] => .ok []
  | (k, pn) :: rest => do
      let v ← unprepareC userCtors allowlist pn
      let vs ← unprepareCProps userCtors allowlist rest
      .ok ((k, v) :: vs)

end

end Ctor

/-! ### The typed-array binary codec

Embeds `notUnicode` (src/kvin.js 820-830), `prepare$ArrayBuffer16`
(836-886), `prepare$ArrayBuffer8` (891-924) and the tune-driven selector
`prepare$ArrayBuffer` (934-968).  JavaScript strings appear here as lists
of UTF-16 code units (`List Nat`), byte buffers as lists of bytes. -/

namespace AB

/-- The runtime endianness probe (src/kvin.js 160-173): write `0xffef`
into a 16-bit cell and inspect the low byte.  The modelled host is
little-endian. -/
def littleEndian : Bool := true

def isHighSurrogate (c : Nat) : Bool := 0xD800 ≤ c && c ≤ 0xDBFF

def isLowSurrogate (c : Nat) : Bool := 0xDC00 ≤ c && c ≤ 0xDFFF

/-- The test `/[\ud800-\udbff][^\udc00-\udfff]/` of `notUnicode`: some
adjacent pair is a high surrogate followed by a non-low-surrogate. -/
def hasHighThenNonLow : List Nat → Bool
  | c1 :: c2 :: rest =>
      (isHighSurrogate c1 && !isLowSurrogate c2) || hasHighThenNonLow (c2 :: rest)
  | _ => false

/-- The test `/[^\ud800-\udbff][\udc00-\udfff]/` of `notUnicode`: some
adjacent pair is a non-high-surrogate followed by a low surrogate. -/
def hasNonHighThenLow : List Nat → Bool
  | c1 :: c2 :: rest =>
      (!isHighSurrogate c1 && isLowSurrogate c2) || hasNonHighThenLow (c2 :: rest)
  | _ => false

/-- `notUnicode` (src/kvin.js 820-830).  Both tests inspect adjacent
pairs, so a lone surrogate at the very start or very end of the string is
not detected. -/
def notUnicode (s : List Nat) : Bool :=
  hasHighThenNonLow s || hasNonHighThenLow s

/-- Well-formed UTF-16: every high surrogate is immediately followed by a
low surrogate and every low surrogate immediately follows a high one.
This is the claim's notion of "contains no unpaired surrogate". -/
def wellFormedUTF16 : List Nat → Bool
  | [] => true
  | [c] => !(isHighSurrogate c || isLowSurrogate c)
  | c :: c2 :: rest =>
      if isHighSurrogate c then isLowSurrogate c2 && wellFormedUTF16 rest
      else if isLowSurrogate c then false
      else wellFormedUTF16 (c2 :: rest)

/-- Word list of a byte buffer on a little-endian host
(`ui16[i] = b[2i] + 256 * b[2i+1]`); a trailing odd byte is excluded
(`nWords = floor(byteLength / 2)`). -/
def wordsOfBytesLE : List Nat → List Nat
  | b0 :: b1 :: rest => (b0 + 256 * b1) :: wordsOfBytesLE rest
  | _ => []

/-- Word list on a big-endian host (src/kvin.js 849-854). -/
def wordsOfBytesBE : List Nat → List Nat
  | b0 :: b1 :: rest => (256 * b0 + b1) :: wordsOfBytesBE rest
  | _ => []

/-- The UCS-2 string built by `prepare$ArrayBuffer16` (src/kvin.js 844-854). -/
def stringOfBuffer (bytes : List Nat) : List Nat :=
  if littleEndian then wordsOfBytesLE bytes else wordsOfBytesBE bytes

/-- Does `s` start with `k` zero code units? -/
def startsWithZeros (k : Nat) (s : List Nat) : Bool :=
  (s.take k).length = k && (s.take k).all (· = 0)

/-- `s.indexOf('\u0000' * k) !== -1`: `s` contains `k` consecutive zero
code units. -/
def hasZeroRun (k : Nat) : List Nat → Bool
  | [] => startsWithZeros k []
  | c :: rest => startsWithZeros k (c :: rest) || hasZeroRun k rest

/-- Length of the maximal run of zero code units at the head of `s`. -/
def countZeros : List Nat → Nat
  | 0 :: rest => countZeros rest + 1
  | _ => 0

theorem countZeros_le (s : List Nat) : countZeros s ≤ s.length := by
  induction s with
  | nil => simp [countZeros]
  | cons c rest ih =>
      cases c with
      | zero => simpa [countZeros] using Nat.succ_le_succ ih
      | succ n => simp [countZeros]

/-- One island of the regex
`/([^\u0000]+(.{0,3}([^\u0000]|$))*)+/g` followed by the trailing-zero
strip (src/kvin.js 862-868): starting at the non-zero code unit `c`, the
island extends across internal zero gaps of at most three units and ends
at its last non-zero unit.  Returns the island content and the number of
code units consumed from `rest`. -/
def islandTake (c : Nat) (rest : List Nat) : List Nat × Nat :=
  let z := countZeros rest
  if z ≤ 3 ∧ rest.drop z ≠ [] then
    match hafter : rest.drop z with
    | c2 :: rest2 =>
        let (seg, m) := islandTake c2 rest2
        (c :: (List.replicate z 0 ++ seg), z + 1 + m)
    | [] => ([c], 0)
  else ([c], 0)
  termination_by rest.length
  decreasing_by
    have h1 : (rest.drop z).length = rest.length - z := List.length_drop z rest
    have h2 : (c2 :: rest2).length = rest2.length + 1 := by simp
    rw [hafter] at h1
    simp only [List.length_cons] at h1
    omega

/-- The `while ((island = re.exec(s)))` loop (src/kvin.js 865-868):
islands of mostly-non-zero content with their offsets. -/
def islandsOf : List Nat → Nat → List (Nat × List Nat)
  | [], _ => []
  | c :: rest, pos =>
      if c = 0 then islandsOf rest (pos + 1)
      else
        let (seg, m) := islandTake c rest
        (pos, seg) :: islandsOf (rest.drop m) (pos + 1 + m)
  termination_by s _ => s.length
  decreasing_by
    · simp
    · have := List.length_drop m rest
      simp only [List.length_cons]
      omega

/-- A typed-array view presented to the binary codec: the `ctors` index of
its constructor, the bytes of its buffer window, and its element list as
produced by `Array.prototype.slice.call(o)`. -/
structure TypedArrayM where
  ctr : Nat
  bytes : List Nat
  elems : List Int

/-- Nodes produced by the binary codec, with fields in the insertion order
the source creates them (which is the `JSON.stringify` key order). -/
inductive ABNode where
  | naive (ctr : Nat) (arg : List Int)
  | ab8 (ctr : Nat) (s : List Nat)
  | isl8 (ctr : Nat) (isl : List (Nat × List Nat)) (len : Nat)
  | ab16 (ctr : Nat) (s : List Nat) (eb : Option Nat)
  | isl16 (ctr : Nat) (isl : List (Nat × List Nat)) (len : Nat) (eb : Option Nat)
deriving DecidableEq, Repr

/-- The code units of the string `"[object Object]"`: what an island
object coerces to when `notUnicode(ret.isl16[i])` applies a regex test to
the island record itself rather than to its string (src/kvin.js 880). -/
def objectObjectUnits : List Nat := "[object Object]".data.map Char.toNat

/-- `prepare$ArrayBuffer16` (src/kvin.js 836-886).  Returns `none` for the
`return null` rejection paths.  Note the isl16 validation loop applies
`notUnicode` to each island record, which JavaScript coerces to the string
`"[object Object]"`, never to the island's own text. -/
def prepare_ArrayBuffer16 (ctr : Nat) (bytes : List Nat) : Option ABNode :=
  let nWords := bytes.length / 2
  let s := stringOfBuffer bytes
  let eb := if 2 * nWords ≠ bytes.length then (bytes.getLast?) else none
  if ¬ hasZeroRun 4 s then
    if notUnicode s then none
    else some (.ab16 ctr s eb)
  else
    let isl := islandsOf s 0
    if isl.any (fun _island => notUnicode objectObjectUnits) then none
    else some (.isl16 ctr isl bytes.length eb)

/-- `prepare$ArrayBuffer8` (src/kvin.js 891-924): each byte becomes one
code unit (the `_vm_fun_maxargs` chunking joins back to the same string);
byte strings with a run of eight zeros go to the islands form. -/
def prepare_ArrayBuffer8 (ctr : Nat) (bytes : List Nat) : ABNode :=
  let s := bytes
  if ¬ hasZeroRun 8 s then .ab8 ctr s
  else .isl8 ctr (islandsOf s 0) bytes.length

/-! JSON-serialized length of the codec nodes, in UTF-16 code units,
following `JSON.stringify`: control characters and lone surrogates escape
to six units, `"` and `\` and the short control escapes to two. -/

/-- Decimal length of a JSON number. -/
def intDecLen (i : Int) : Nat :=
  if i < 0 then 1 + (natToDigits (-i).toNat).length
  else (natToDigits i.toNat).length

/-- Escaped length of one non-surrogate code unit inside a JSON string. -/
def jsonUnitLen (c : Nat) : Nat :=
  if c = 0x22 ∨ c = 0x5C then 2
  else if c = 8 ∨ c = 9 ∨ c = 10 ∨ c = 12 ∨ c = 13 then 2
  else if c < 0x20 then 6
  else 1

/-- `JSON.stringify` length of a string body (well-formed surrogate pairs
stay two units; lone surrogates escape to six). -/
def jsonStrLen : List Nat → Nat
  | [] => 0
  | [c] => if isHighSurrogate c || isLowSurrogate c then 6 else jsonUnitLen c
  | c :: c2 :: rest =>
      if isHighSurrogate c then
        if isLowSurrogate c2 then 2 + jsonStrLen rest
        else 6 + jsonStrLen (c2 :: rest)
      else if isLowSurrogate c then 6 + jsonStrLen (c2 :: rest)
      else jsonUnitLen c + jsonStrLen (c2 :: rest)

/-- Length of a quoted JSON string. -/
def jsonQStrLen (s : List Nat) : Nat := 2 + jsonStrLen s

/-- Length of a JSON array given its member lengths. -/
def jsonArrLen (ls : List Nat) : Nat :=
  2 + ls.foldl (· + ·) 0 + (ls.length - 1)

/-- Length of one `"key":value` member. -/
def jsonMemberLen (key : String) (vlen : Nat) : Nat := key.length + 3 + vlen

/-- Length of a JSON object given its member lengths. -/
def jsonObjLen (ms : List Nat) : Nat :=
  2 + ms.foldl (· + ·) 0 + (ms.length - 1)

/-- Length of one island record `0: text, @: offset` (the integer-like
key `0` is serialized first). -/
def jsonIslandLen (isl : Nat × List Nat) : Nat :=
  jsonObjLen [jsonMemberLen "0" (jsonQStrLen isl.2),
              jsonMemberLen "@" (intDecLen isl.1)]

/-- `JSON.stringify(node).length` for the binary-codec nodes. -/
def jsonLenAB : ABNode → Nat
  | .naive ctr arg =>
      jsonObjLen [jsonMemberLen "ctr" (intDecLen ctr),
                  jsonMemberLen "arg" (jsonArrLen (arg.map intDecLen))]
  | .ab8 ctr s =>
      jsonObjLen [jsonMemberLen "ctr" (intDecLen ctr),
                  jsonMemberLen "ab8" (jsonQStrLen s)]
  | .isl8 ctr isl len =>
      jsonObjLen [jsonMemberLen "ctr" (intDecLen ctr),
                  jsonMemberLen "isl8" (jsonArrLen (isl.map jsonIslandLen)),
                  jsonMemberLen "len" (intDecLen len)]
  | .ab16 ctr s eb =>
      jsonObjLen ([jsonMemberLen "ctr" (intDecLen ctr),
                   jsonMemberLen "ab16" (jsonQStrLen s)] ++
        (match eb with | some b => [jsonMemberLen "eb" (intDecLen b)] | none => []))
  | .isl16 ctr isl len eb =>
      jsonObjLen ([jsonMemberLen "ctr" (intDecLen ctr),
                   jsonMemberLen "isl16" (jsonArrLen (isl.map jsonIslandLen)),
                   jsonMemberLen "len" (intDecLen len)] ++
        (match eb with | some b => [jsonMemberLen "eb" (intDecLen b)] | none => []))

/-- `a < b` where `none` stands for the `Infinity` given to an absent
naive or rejected ab16 length (src/kvin.js 946, 958). -/
def optLtOpt : Option Nat → Option Nat → Bool
  | none, _ => false
  | some _, none => true
  | some a, some b => a < b

/-- The comparison `naive.length < ab8.length` (src/kvin.js 950): the
prepared nodes are plain objects with no `length` property, so both
operands are `undefined` and the JavaScript `<` on them is false. -/
def undefinedLtUndefined : Bool := false

/-- `prepare$ArrayBuffer` (src/kvin.js 934-968): the tune-knob selector
over the naive, ab8 and ab16 encodings. -/
def prepare_ArrayBuffer (tune : Option String) (packThreshold : Nat)
    (o : TypedArrayM) : ABNode :=
  let naive : Option ABNode :=
    if tune = some "speed" ∨ tune = some "size" ∨ o.bytes.length < packThreshold then
      some (.naive o.ctr o.elems)
    else none
  if tune = some "speed" then (naive.getD (.naive o.ctr o.elems))
  else
    let naiveJSONLen : Option Nat := naive.map jsonLenAB
    let ab8 := prepare_ArrayBuffer8 o.ctr o.bytes
    if tune ≠ some "size" then
      if naive.isSome && undefinedLtUndefined then naive.getD ab8
      else ab8
    else
      let ab16 := prepare_ArrayBuffer16 o.ctr o.bytes
      let ab8JSONLen := jsonLenAB ab8
      let ab16JSONLen : Option Nat := ab16.map jsonLenAB
      if optLtOpt ab16JSONLen (some ab8JSONLen) ∧ optLtOpt ab16JSONLen naiveJSONLen then
        ab16.getD ab8
      else if optLtOpt naiveJSONLen (some ab8JSONLen) then naive.getD ab8
      else ab8

end AB

/-! ### The graph walker and reconstructor on plain-object graphs

Embeds `isPrimitiveLike` (src/kvin.js 530-566), the generic-object paths of
`prepare` (597-732), `prepare$primitive` (993-1001), and the matching
decoder `unprepare` / `unprepare$object` (212-333) over heaps of plain
objects whose values are finite or special numbers, strings, booleans,
`undefined`, and references.  Restrictions of the fragment: arrays, typed
arrays, boxed primitives, functions, errors, promises and `null` property
values are outside this universe (each has its own encoder; `null`-valued
properties fall through to `prepare$number` in the source), and bigint
property values throw in the source (line 727).  Encoding recurses through
the object graph, so it carries explicit fuel; decoding is structural in
the wire tree and needs none.  The `JSON.stringify`/`JSON.parse` step is
modelled where it matters: `prepare$primitive` snapshots the reachable
subtree of a primitive-like value (`snapGo`), and decoding a `raw` node
materializes a fresh copy of that snapshot (`materialize`). -/

namespace Graph

/-- Heap addresses. -/
abbrev Addr := Nat

/-- Runtime values of the fragment. -/
inductive V where
  | num (n : JSNum)
  | str (s : String)
  | bool (b : Bool)
  | undef
  | ref (a : Addr)
deriving DecidableEq, Repr

/-- A plain object: own enumerable properties in insertion order. -/
abbrev Obj := List (String × V)

/-- A heap of plain objects; a `V.ref a` denotes the object at index `a`. -/
abbrev Heap := List Obj

mutual
/-- A JSON tree: the payload of a `raw` node after the
`JSON.stringify`/`JSON.parse` round trip. -/
inductive PTree where
  | num (i : Int)
  | str (s : String)
  | bool (b : Bool)
  | obj (fs : PTFields)
deriving DecidableEq, Repr

/-- Fields of a JSON-tree object, in order. -/
inductive PTFields where
  | nil
  | cons (k : String) (t : PTree) (rest : PTFields)
deriving DecidableEq, Repr
end

mutual
/-- Prepared nodes of the fragment: a bare finite number, the
`number`/`json`/`raw`/`undefined`/`seen` tag objects, and the
constructed-plain-object node (`ctr` is always the index of `Object`,
which is `0`, so the node carries only its property map). -/
inductive PNode where
  | bare (i : Int)
  | number (s : String)
  | json (s : String)
  | raw (t : PTree)
  | undefTag
  | seenTag (i : Nat)
  | objTag (ps : PFields)
deriving DecidableEq, Repr

/-- The `ps` property map of an `objTag` node, in insertion order. -/
inductive PFields where
  | nil
  | cons (k : String) (pn : PNode) (rest : PFields)
deriving DecidableEq, Repr
end

/-- `prepare$number`'s result as a graph wire node (same dispatch as
`prepare_number`; the `bigint` arm of the shared scalar node type cannot
arise from a number input). -/
def numNode (n : JSNum) : PNode :=
  match prepare_number n with
  | .bare i => .bare i
  | .number s => .number s
  | .json s => .json s
  | .bigint s => .number s

/-- Tasks of the primitive classifier: classify one value, or fold the
`for prop in o` loop over remaining fields. -/
inductive ITask where
  | val (v : V)
  | fieldsLoop (flds : Obj)

/-- The `seen.indexOf(o[prop]) !== -1` test of `isPrimitiveLike`: only a
reference can be a member of the visited list. -/
def iplSeenHit (seen : List Addr) : V → Bool
  | .ref b => decide (b ∈ seen)
  | _ => false

/-- `isPrimitiveLike` (src/kvin.js 530-566) with structural fuel.  The
`seen` parameter is the list the caller passes (`prepare` passes its
visited table; the recursion passes `seen.concat(o)`), and the
`seen.indexOf(o[prop]) !== -1` test can only hit reference values since
only objects are ever in the table.  `none` means the fuel ran out. -/
def iplGo (H : Heap) : Nat → List Addr → ITask → Option Bool
  | 0, _, _ => none
  | _fuel + 1, _seen, .val (.str _) => some true
  | _fuel + 1, _seen, .val (.bool _) => some true
  | _fuel + 1, _seen, .val (.num n) => some (jsIsFinite n)
  | _fuel + 1, _seen, .val .undef => some false
  | fuel + 1, seen, .val (.ref a) =>
      if H.getD a [] = [] then some true
      else iplGo H fuel (seen ++ [a]) (.fieldsLoop (H.getD a []))
  | _fuel + 1, _seen, .fieldsLoop [] => some true
  | fuel + 1, seen, .fieldsLoop ((_k, v) :: rest) =>
      if iplSeenHit seen v then some false
      else match iplGo H fuel seen (.val v) with
        | none => none
        | some false => some false
        | some true => iplGo H fuel seen (.fieldsLoop rest)

/-- `isPrimitiveLike(o, seen)`. -/
def isPrimitiveLike (fuel : Nat) (H : Heap) (seen : List Addr) (v : V) :
    Option Bool :=
  iplGo H fuel seen (.val v)

/-- Tasks of the snapshot pass: one value or a field list. -/
inductive STask where
  | val (v : V)
  | flds (o : Obj)

/-- Results of the snapshot pass. -/
inductive SOut where
  | tree (t : PTree)
  | treeFields (fs : PTFields)

/-- The `JSON.stringify` view of a primitive-like value: the tree the
decoder's `JSON.parse` will hand to `unprepare` inside a `raw` node.
Negative zero serializes as `0`.  Non-finite numbers and `undefined`
never occur under a primitive-like value, and neither do references back
into the visited path, so those cases simply give up (`none`). -/
def snapGo (H : Heap) : Nat → STask → Option SOut
  | 0, _ => none
  | _fuel + 1, .val (.num (.fin i)) => some (.tree (.num i))
  | _fuel + 1, .val (.num .negZero) => some (.tree (.num 0))
  | _fuel + 1, .val (.num .nan) => none
  | _fuel + 1, .val (.num .inf) => none
  | _fuel + 1, .val (.num .ninf) => none
  | _fuel + 1, .val (.str s) => some (.tree (.str s))
  | _fuel + 1, .val (.bool b) => some (.tree (.bool b))
  | _fuel + 1, .val .undef => none
  | fuel + 1, .val (.ref a) =>
      match snapGo H fuel (.flds (H.getD a [])) with
      | some (.treeFields fs) => some (.tree (.obj fs))
      | _ => none
  | _fuel + 1, .flds [] => some (.treeFields .nil)
  | fuel + 1, .flds ((k, v) :: rest) =>
      match snapGo H fuel (.val v) with
      | some (.tree t) =>
          match snapGo H fuel (.flds rest) with
          | some (.treeFields fs) => some (.treeFields (.cons k t fs))
          | _ => none
      | _ => none

/-- Encoder tasks: prepare one value, or run the own-property loop. -/
inductive ETask where
  | val (v : V)
  | fields (flds : Obj)

/-- Encoder results. -/
inductive EOut where
  | node (pn : PNode)
  | fields (ps : PFields)

/-- The graph walker `prepare` (src/kvin.js 597-732) on this fragment,
with structural fuel (`none` = fuel exhausted):

* numbers dispatch to `prepare$number` first (line 601);
* primitive-like values return `prepare$primitive`'s raw wrapper over
  their JSON snapshot (lines 607-610, 993-1001; the `typeof po` slip in
  `prepare$primitive` makes it wrap every argument);
* `undefined` returns the sentinel (611);
* other references are looked up in the visited table, yielding a back
  reference or a fresh entry (614-619);
* a plain object then takes the generic constructed-object path with
  `ctr = ctors.indexOf(Object)`, no `arg`, and the own-property loop
  (651, 677-682, 693-729), whose per-property dispatch re-checks the
  visited table before recursing (709-713) and sends scalars through
  `prepare$number` / `prepare$primitive` / `prepare$undefined`. -/
def prepGo (H : Heap) : Nat → List Addr → ETask → Option (List Addr × EOut)
  | 0, _, _ => none
  | fuel + 1, seen, .val (.num n) => some (seen, .node (numNode n))
  | fuel + 1, seen, .val (.str s) =>
      match iplGo H fuel seen (.val (.str s)) with
      | none => none
      | some true =>
          match snapGo H fuel (.val (.str s)) with
          | some (.tree t) => some (seen, .node (.raw t))
          | _ => none
      | some false => none
  | fuel + 1, seen, .val (.bool b) =>
      match iplGo H fuel seen (.val (.bool b)) with
      | none => none
      | some true =>
          match snapGo H fuel (.val (.bool b)) with
          | some (.tree t) => some (seen, .node (.raw t))
          | _ => none
      | some false => none
  | fuel + 1, seen, .val .undef =>
      match iplGo H fuel seen (.val .undef) with
      | none => none
      | some true =>
          match snapGo H fuel (.val .undef) with
          | some (.tree t) => some (seen, .node (.raw t))
          | _ => none
      | some false => some (seen, .node .undefTag)
  | fuel + 1, seen, .val (.ref a) =>
      match iplGo H fuel seen (.val (.ref a)) with
      | none => none
      | some true =>
          match snapGo H fuel (.val (.ref a)) with
          | some (.tree t) => some (seen, .node (.raw t))
          | _ => none
      | some false =>
          if a ∈ seen then some (seen, .node (.seenTag (seen.indexOf a)))
          else
            match prepGo H fuel (seen ++ [a]) (.fields (H.getD a [])) with
            | some (seen2, .fields ps) => some (seen2, .node (.objTag ps))
            | _ => none
  | _fuel + 1, seen, .fields [] => some (seen, .fields .nil)
  | fuel + 1, seen, .fields ((k, v) :: rest) =>
      match
        (match v with
          | .ref b =>
              if b ∈ seen then some (seen, PNode.seenTag (seen.indexOf b))
              else
                match prepGo H fuel seen (.val (.ref b)) with
                | some (seen2, .node pn) => some (seen2, pn)
                | _ => none
          | .num n => some (seen, numNode n)
          | .str s => some (seen, PNode.raw (.str s))
          | .bool b => some (seen, PNode.raw (.bool b))
          | .undef => some (seen, PNode.undefTag)) with
      | none => none
      | some (seen2, pn) =>
          match prepGo H fuel seen2 (.fields rest) with
          | some (seen3, .fields ps) => some (seen3, .fields (.cons k pn ps))
          | _ => none

/-- `prepare(seen, o, where)`. -/
def prepare (fuel : Nat) (H : Heap) (seen : List Addr) (v : V) :
    Option (List Addr × PNode) :=
  match prepGo H fuel seen (.val v) with
  | some (seen1, .node pn) => some (seen1, pn)
  | _ => none

/-- Decoder state: the heap being built and the decode-side visited table
(`seen` of `unprepare`). -/
structure DState where
  heap : Heap
  seen : List V
deriving Repr

/-- JavaScript property assignment `o[prop] = v`: update an existing key
in place, else append. -/
def setField (o : Obj) (k : String) (v : V) : Obj :=
  if o.any (fun kv => kv.1 = k) then
    o.map (fun kv => if kv.1 = k then (k, v) else kv)
  else o ++ [(k, v)]

/-- Assignment on a heap object. -/
def heapSet (H : Heap) (a : Addr) (k : String) (v : V) : Heap :=
  H.set a (setField (H.getD a []) k v)

mutual
/-- Materialize a `raw` payload into the decode heap: the live structure
`JSON.parse` created for it, copied afresh (children first, then the
enclosing object).  Each decode of a `raw` object node produces an
independent copy — the first via `Object.assign(new Object(), po.raw)`,
later ones via `JSON.parse(JSON.stringify(po.raw))` under the `used`
flag (src/kvin.js 238-248); the two differ only in whether the copy's
children are shared with the parse-time structure, which is unobservable
in the produced graph since that structure is reachable nowhere else. -/
def materialize (st : DState) : PTree → DState × V
  | .num i => (st, .num (.fin i))
  | .str s => (st, .str s)
  | .bool b => (st, .bool b)
  | .obj fs =>
      let (st1, flds) := materializeFields st fs
      (⟨st1.heap ++ [flds], st1.seen⟩, .ref st1.heap.length)

/-- Materialize the fields of a `raw` object payload, in order. -/
def materializeFields (st : DState) : PTFields → DState × Obj
  | .nil => (st, [])
  | .cons k t rest =>
      let (st1, v) := materialize st t
      let (st2, flds) := materializeFields st1 rest
      (st2, (k, v) :: flds)
end

mutual
/-- The reconstructor `unprepare` (src/kvin.js 212-294) on this
fragment's wire nodes.  `objTag` nodes carry `ctr = 0` (`Object`), which
passes the numeric-`ctr` validation, so no validation error can arise
here; `seen` back-references out of range throw. -/
def unprepare (st : DState) : PNode → Except String (DState × V)
  | .bare i => .ok (st, .num (.fin i))
  | .number s => .ok (st, .num (unprepare_number s))
  | .json s =>
      match jsonParseNum s with
      | .ok n => .ok (st, .num n)
      | .error e => .error e
  | .raw t =>
      match t with
      | .obj fs =>
          let (st1, v) := materialize st (.obj fs)
          .ok (st1, v)
      | .num i => .ok (st, .num (.fin i))
      | .str s => .ok (st, .str s)
      | .bool b => .ok (st, .bool b)
  | .undefTag => .ok (st, .undef)
  | .seenTag i =>
      if h : i < st.seen.length then .ok (st, st.seen.get ⟨i, h⟩)
      else .error ("Seen-list corruption detected at index " ++ toString i)
  | .objTag ps =>
      let a := st.heap.length
      let st1 : DState := ⟨st.heap ++ [[]], st.seen ++ [.ref a]⟩
      match unprepareProps st1 a ps with
      | .ok st2 => .ok (st2, .ref a)
      | .error e => .error e

/-- The property loop of `unprepare$object` (src/kvin.js 324-330): the
freshly constructed object was pushed on the visited table *before* this
loop runs, so self-referential properties resolve to it. -/
def unprepareProps (st : DState) (a : Addr) : PFields → Except String DState
  | .nil => .ok st
  | .cons k pn rest =>
      match unprepare st pn with
      | .ok (st1, v) => unprepareProps ⟨heapSet st1.heap a k v, st1.seen⟩ a rest
      | .error e => .error e
end

/-- `marshal` for this fragment: wrap the prepared root in the versioned
envelope (src/kvin.js 1011-1013). -/
def marshalG (fuel : Nat) (H : Heap) (v : V) : Option (Envelope PNode) :=
  (prepare fuel H [] v).map (fun p => ⟨some serializeVerId, p.2⟩)

/-- `deserialize(serialize(·))` for this fragment: the envelope version
gate followed by reconstruction from a fresh decoder state; returns the
final decode heap alongside the root value. -/
def deserializeG (env : Envelope PNode) : Except String (Heap × V) :=
  unmarshal (fun pn =>
    match unprepare ⟨[], []⟩ pn with
    | .ok (st, v) => .ok (st.heap, v)
    | .error e => .error e) env

/-- Well-formed heaps: every reference is in range and every object's
keys are distinct (JavaScript objects cannot carry duplicate keys). -/
def heapWF (H : Heap) : Prop :=
  ∀ o ∈ H, (o.map Prod.fst).Nodup ∧
    ∀ kv ∈ o, match kv.2 with
      | V.ref a => a < H.length
      | _ => True

/-! #### Properties of the primitive classifier -/

/-- An absolutely primitive-like value: classified `true` from an empty
visited list with some fuel. -/
def PLtrueV (H : Heap) (v : V) : Prop :=
  ∃ fuel, iplGo H fuel [] (.val v) = some true

/-- No member of the visited table is absolutely primitive-like — the key
invariant of the encoder: primitive-like values are raw-encoded and never
pushed, and pushed objects can never later be classified primitive-like. -/
def NPL (H : Heap) (E : List Addr) : Prop :=
  ∀ a ∈ E, ¬ PLtrueV H (.ref a)

theorem iplSeenHit_congr {S S' : List Addr} (v : V)
    (h : ∀ x, x ∈ S ↔ x ∈ S') : iplSeenHit S v = iplSeenHit S' v := by
  cases v <;> simp [iplSeenHit, h]

theorem iplGo_congr_seen (H : Heap) :
    ∀ fuel (S S' : List Addr) (t : ITask), (∀ x, x ∈ S ↔ x ∈ S') →
      iplGo H fuel S t = iplGo H fuel S' t := by
  intro fuel
  induction fuel with
  | zero => intro S S' t _; rfl
  | succ fuel ih =>
      intro S S' t hSS
      match t with
      | .val (.str _) => rfl
      | .val (.bool _) => rfl
      | .val (.num _) => rfl
      | .val .undef => rfl
      | .val (.ref a) =>
          rw [iplGo, iplGo]
          by_cases he : H.getD a [] = []
          · rw [if_pos he, if_pos he]
          · rw [if_neg he, if_neg he]
            exact ih (S ++ [a]) (S' ++ [a]) _ (by
              intro x
              simp [List.mem_append, hSS x])
      | .fieldsLoop [] => rfl
      | .fieldsLoop ((k, v) :: rest) =>
          rw [iplGo, iplGo]
          rw [iplSeenHit_congr v hSS]
          by_cases hb : iplSeenHit S' v = true
          · rw [if_pos hb, if_pos hb]
          · rw [if_neg hb, if_neg hb]
            rw [ih S S' (.val v) hSS]
            cases hv : iplGo H fuel S' (.val v) with
            | none => rfl
            | some r =>
                cases r
                · rfl
                · exact ih S S' (.fieldsLoop rest) hSS

theorem iplGo_mono_fuel (H : Heap) :
    ∀ fuel₁ fuel₂ (S : List Addr) (t : ITask) (r : Bool), fuel₁ ≤ fuel₂ →
      iplGo H fuel₁ S t = some r → iplGo H fuel₂ S t = some r := by
  intro fuel₁
  induction fuel₁ with
  | zero => intro fuel₂ S t r _ h; exact absurd h (by simp [iplGo])
  | succ fuel ih =>
      intro fuel₂ S t r hle h
      obtain ⟨fuel₂', rfl⟩ : ∃ k, fuel₂ = k + 1 := ⟨fuel₂ - 1, by omega⟩
      have hle' : fuel ≤ fuel₂' := by omega
      match t with
      | .val (.str _) => exact h
      | .val (.bool _) => exact h
      | .val (.num _) => exact h
      | .val .undef => exact h
      | .val (.ref a) =>
          rw [iplGo] at h ⊢
          by_cases he : H.getD a [] = []
          · rw [if_pos he] at h ⊢
            exact h
          · rw [if_neg he] at h ⊢
            exact ih fuel₂' _ _ _ hle' h
      | .fieldsLoop [] => exact h
      | .fieldsLoop ((k, v) :: rest) =>
          rw [iplGo] at h ⊢
          by_cases hb : iplSeenHit S v = true
          · rw [if_pos hb] at h ⊢
            exact h
          · rw [if_neg hb] at h ⊢
            cases hv : iplGo H fuel S (.val v) with
            | none => rw [hv] at h; exact absurd h (by simp)
            | some rv =>
                rw [hv] at h
                rw [ih fuel₂' S (.val v) rv hle' hv]
                cases rv
                · exact h
                · exact ih fuel₂' S (.fieldsLoop rest) r hle' h

theorem iplGo_true_subset (H : Heap) :
    ∀ fuel (S S' : List Addr) (t : ITask), (∀ x ∈ S', x ∈ S) →
      iplGo H fuel S t = some true → iplGo H fuel S' t = some true := by
  intro fuel
  induction fuel with
  | zero => intro S S' t _ h; exact absurd h (by simp [iplGo])
  | succ fuel ih =>
      intro S S' t hsub h
      match t with
      | .val (.str _) => exact h
      | .val (.bool _) => exact h
      | .val (.num _) => exact h
      | .val .undef => exact h
      | .val (.ref a) =>
          rw [iplGo] at h ⊢
          by_cases he : H.getD a [] = []
          · simp only [if_pos he] at h ⊢
          · rw [if_neg he] at h ⊢
            refine ih _ _ _ ?_ h
            intro x hx
            rcases List.mem_append.mp hx with hx | hx
            · exact List.mem_append.mpr (.inl (hsub x hx))
            · exact List.mem_append.mpr (.inr hx)
      | .fieldsLoop [] => exact h
      | .fieldsLoop ((k, v) :: rest) =>
          rw [iplGo] at h ⊢
          by_cases hb : iplSeenHit S v = true
          · rw [if_pos hb] at h
            exact absurd h (by simp)
          · have hb' : ¬ iplSeenHit S' v = true := by
              intro hmem
              apply hb
              cases v with
              | ref b =>
                  simp only [iplSeenHit, decide_eq_true_eq] at hmem ⊢
                  exact hsub b hmem
              | num n => exact absurd hmem (by simp [iplSeenHit])
              | str s => exact absurd hmem (by simp [iplSeenHit])
              | bool b => exact absurd hmem (by simp [iplSeenHit])
              | undef => exact absurd hmem (by simp [iplSeenHit])
            rw [if_neg hb] at h
            rw [if_neg hb']
            cases hv : iplGo H fuel S (.val v) with
            | none => rw [hv] at h; exact absurd h (by simp)
            | some rv =>
                rw [hv] at h
                cases rv
                · exact absurd h (by simp)
                · rw [ih S S' (.val v) hsub hv]
                  exact ih S S' (.fieldsLoop rest) hsub h

/-- A `some true` verdict with any visited list is an absolute verdict. -/
theorem PLtrueV_of_iplGo_true {H : Heap} {fuel : Nat} {S : List Addr} {v : V}
    (h : iplGo H fuel S (.val v) = some true) : PLtrueV H v :=
  ⟨fuel, iplGo_true_subset H fuel S [] (.val v) (by simp) h⟩

theorem iplGo_true_pad (H : Heap) :
    ∀ fuel (P S : List Addr) (t : ITask), (∀ d ∈ S, ¬ PLtrueV H (.ref d)) →
      iplGo H fuel P t = some true → iplGo H fuel (P ++ S) t = some true := by
  intro fuel
  induction fuel with
  | zero => intro P S t _ h; exact absurd h (by simp [iplGo])
  | succ fuel ih =>
      intro P S t hS h
      match t with
      | .val (.str _) => exact h
      | .val (.bool _) => exact h
      | .val (.num _) => exact h
      | .val .undef => exact h
      | .val (.ref a) =>
          rw [iplGo] at h ⊢
          by_cases he : H.getD a [] = []
          · simp only [if_pos he] at h ⊢
          · rw [if_neg he] at h ⊢
            have := ih (P ++ [a]) S _ hS h
            rw [iplGo_congr_seen H fuel ((P ++ S) ++ [a]) ((P ++ [a]) ++ S) _ (by
              intro x
              simp [List.mem_append]
              tauto)]
            exact this
      | .fieldsLoop [] => exact h
      | .fieldsLoop ((k, v) :: rest) =>
          rw [iplGo] at h ⊢
          by_cases hb : iplSeenHit P v = true
          · rw [if_pos hb] at h
            exact absurd h (by simp)
          · rw [if_neg hb] at h
            cases hv : iplGo H fuel P (.val v) with
            | none => rw [hv] at h; exact absurd h (by simp)
            | some rv =>
                rw [hv] at h
                cases rv
                · exact absurd h (by simp)
                · have hbPS : ¬ iplSeenHit (P ++ S) v = true := by
                    intro hmem
                    cases v with
                    | ref b =>
                        simp only [iplSeenHit, decide_eq_true_eq,
                          List.mem_append] at hmem
                        rcases hmem with hmem | hmem
                        · exact hb (by simp [iplSeenHit, hmem])
                        · exact absurd (PLtrueV_of_iplGo_true hv) (hS b hmem)
                    | num n => exact absurd hmem (by simp [iplSeenHit])
                    | str s => exact absurd hmem (by simp [iplSeenHit])
                    | bool b => exact absurd hmem (by simp [iplSeenHit])
                    | undef => exact absurd hmem (by simp [iplSeenHit])
                  rw [if_neg hbPS]
                  rw [ih P S (.val v) hS hv]
                  exact ih P S (.fieldsLoop rest) hS h

/-- A `some false` verdict against a visited list of non-primitive-like
objects rules out absolute primitive-likeness. -/
theorem not_PLtrueV_of_ipl_false {H : Heap} {fuel : Nat} {S : List Addr} {v : V}
    (h : iplGo H fuel S (.val v) = some false)
    (hS : ∀ d ∈ S, ¬ PLtrueV H (.ref d)) : ¬ PLtrueV H v := by
  rintro ⟨F, hT⟩
  have hT' : iplGo H (max fuel F) [] (.val v) = some true :=
    iplGo_mono_fuel H F (max fuel F) [] _ _ (by omega) hT
  have hT'' : iplGo H (max fuel F) ([] ++ S) (.val v) = some true :=
    iplGo_true_pad H (max fuel F) [] S _ hS hT'
  have hF : iplGo H (max fuel F) S (.val v) = some false :=
    iplGo_mono_fuel H fuel (max fuel F) S _ _ (by omega) h
  rw [List.nil_append] at hT''
  rw [hT''] at hF
  exact absurd hF (by simp)

/-! #### Structural facts about the encoder and decoder -/

/-- The encoder only appends to the visited table. -/
theorem prepGo_seen_extends (H : Heap) :
    ∀ fuel (E : List Addr) (t : ETask) (E' : List Addr) (out : EOut),
      prepGo H fuel E t = some (E', out) → ∃ Δ, E' = E ++ Δ := by
  intro fuel
  induction fuel with
  | zero => intro E t E' out h; exact absurd h (by simp [prepGo])
  | succ fuel ih =>
      intro E t E' out h
      match t with
      | .val (.num n) =>
          rw [prepGo] at h
          simp only [Option.some.injEq, Prod.mk.injEq] at h
          exact ⟨[], by simp [h.1.symm]⟩
      | .val (.str s) =>
          rw [prepGo] at h
          split at h
          · exact absurd h (by simp)
          · split at h
            · simp only [Option.some.injEq, Prod.mk.injEq] at h
              exact ⟨[], by simp [h.1.symm]⟩
            · exact absurd h (by simp)
          · exact absurd h (by simp)
      | .val (.bool b) =>
          rw [prepGo] at h
          split at h
          · exact absurd h (by simp)
          · split at h
            · simp only [Option.some.injEq, Prod.mk.injEq] at h
              exact ⟨[], by simp [h.1.symm]⟩
            · exact absurd h (by simp)
          · exact absurd h (by simp)
      | .val .undef =>
          rw [prepGo] at h
          split at h
          · exact absurd h (by simp)
          · split at h
            · simp only [Option.some.injEq, Prod.mk.injEq] at h
              exact ⟨[], by simp [h.1.symm]⟩
            · exact absurd h (by simp)
          · simp only [Option.some.injEq, Prod.mk.injEq] at h
            exact ⟨[], by simp [h.1.symm]⟩
      | .val (.ref a) =>
          rw [prepGo] at h
          split at h
          · exact absurd h (by simp)
          · split at h
            · simp only [Option.some.injEq, Prod.mk.injEq] at h
              exact ⟨[], by simp [h.1.symm]⟩
            · exact absurd h (by simp)
          · split at h
            · simp only [Option.some.injEq, Prod.mk.injEq] at h
              exact ⟨[], by simp [h.1.symm]⟩
            · split at h
              · next E2 ps hrec =>
                  simp only [Option.some.injEq, Prod.mk.injEq] at h
                  obtain ⟨Δ, hΔ⟩ := ih _ _ _ _ hrec
                  exact ⟨[a] ++ Δ, by rw [← h.1, hΔ, List.append_assoc]⟩
              · exact absurd h (by simp)
      | .fields [] =>
          rw [prepGo] at h
          simp only [Option.some.injEq, Prod.mk.injEq] at h
          exact ⟨[], by simp [h.1.symm]⟩
      | .fields ((k, v) :: rest) =>
          have hrest_comp : ∀ (E2 : List Addr) (pn : PNode),
              (match prepGo H fuel E2 (.fields rest) with
                | some (seen3, .fields ps) => some (seen3, EOut.fields (.cons k pn ps))
                | _ => none) = some (E', out) → ∃ Δ, E' = E2 ++ Δ := by
            intro E2 pn hh
            split at hh
            · next E3 ps hrest =>
                simp only [Option.some.injEq, Prod.mk.injEq] at hh
                obtain ⟨Δ2, hΔ2⟩ := ih _ _ _ _ hrest
                exact ⟨Δ2, by rw [← hh.1, hΔ2]⟩
            · exact absurd hh (by simp)
          cases v with
          | num n =>
              rw [prepGo] at h
              exact hrest_comp _ _ h
          | str s =>
              rw [prepGo] at h
              exact hrest_comp _ _ h
          | bool b =>
              rw [prepGo] at h
              exact hrest_comp _ _ h
          | undef =>
              rw [prepGo] at h
              exact hrest_comp _ _ h
          | ref b =>
              rw [prepGo] at h
              by_cases hb : b ∈ E
              · rw [if_pos hb] at h
                exact hrest_comp _ _ h
              · rw [if_neg hb] at h
                rcases hrec : prepGo H fuel E (.val (.ref b)) with _ | ⟨E3, out3⟩
                · rw [hrec] at h
                  exact absurd h (by simp)
                · rw [hrec] at h
                  cases out3 with
                  | fields ps3 => exact absurd h (by simp)
                  | node pn3 =>
                      obtain ⟨Δ1, hΔ1⟩ := ih _ _ _ _ hrec
                      obtain ⟨Δ2, hΔ2⟩ := hrest_comp _ _ h
                      exact ⟨Δ1 ++ Δ2, by rw [hΔ2, hΔ1, List.append_assoc]⟩

theorem heapSet_length (H : Heap) (a : Addr) (k : String) (v : V) :
    (heapSet H a k v).length = H.length := by
  simp [heapSet]

theorem heapSet_getD_ne (H : Heap) {i a : Addr} (k : String) (v : V)
    (h : i ≠ a) : (heapSet H a k v).getD i [] = H.getD i [] := by
  unfold heapSet
  rcases Nat.lt_or_ge a H.length with ha | ha
  · simp only [List.getD_eq_getElem?_getD]
    rw [List.getElem?_set_ne (Ne.symm h)]
  · have hna : H.length ≤ a := ha
    rw [List.set_eq_of_length_le hna]

theorem heapSet_getD_self (H : Heap) {a : Addr} (k : String) (v : V)
    (ha : a < H.length) :
    (heapSet H a k v).getD a [] = setField (H.getD a []) k v := by
  unfold heapSet
  simp only [List.getD_eq_getElem?_getD]
  rw [List.getElem?_set_eq_of_lt _ (by simpa using ha)]
  simp

/-- Appending a fresh key: JavaScript assignment on an absent property. -/
theorem setField_append {o : Obj} {k : String} (v : V)
    (h : k ∉ o.map Prod.fst) : setField o k v = o ++ [(k, v)] := by
  unfold setField
  rw [if_neg]
  intro hc
  rcases List.any_eq_true.mp hc with ⟨kv, hkv, hk⟩
  exact h (List.mem_map.mpr ⟨kv, hkv, by simpa using hk⟩)

mutual
theorem materialize_frame :
    ∀ (st : DState) (t : PTree) (st1 : DState) (v : V),
      materialize st t = (st1, v) → ∃ Δ, st1 = ⟨st.heap ++ Δ, st.seen⟩
  | st, .num i, st1, v, h => by
      simp only [materialize, Prod.mk.injEq] at h
      exact ⟨[], by rw [← h.1]; simp⟩
  | st, .str s, st1, v, h => by
      simp only [materialize, Prod.mk.injEq] at h
      exact ⟨[], by rw [← h.1]; simp⟩
  | st, .bool b, st1, v, h => by
      simp only [materialize, Prod.mk.injEq] at h
      exact ⟨[], by rw [← h.1]; simp⟩
  | st, .obj fs, st1, v, h => by
      rw [materialize] at h
      rcases hmf : materializeFields st fs with ⟨st2, flds⟩
      obtain ⟨Δ, hΔ⟩ := materializeFields_frame st fs st2 flds hmf
      rw [hmf] at h
      simp only [Prod.mk.injEq] at h
      refine ⟨Δ ++ [flds], ?_⟩
      rw [← h.1, hΔ]
      simp

theorem materializeFields_frame :
    ∀ (st : DState) (fs : PTFields) (st1 : DState) (flds : Obj),
      materializeFields st fs = (st1, flds) → ∃ Δ, st1 = ⟨st.heap ++ Δ, st.seen⟩
  | st, .nil, st1, flds, h => by
      simp only [materializeFields, Prod.mk.injEq] at h
      exact ⟨[], by rw [← h.1]; simp⟩
  | st, .cons k t rest, st1, flds, h => by
      rw [materializeFields] at h
      rcases hm : materialize st t with ⟨st2, v2⟩
      obtain ⟨Δ1, hΔ1⟩ := materialize_frame st t st2 v2 hm
      rw [hm] at h
      simp only at h
      rcases hmf : materializeFields st2 rest with ⟨st3, flds3⟩
      obtain ⟨Δ2, hΔ2⟩ := materializeFields_frame st2 rest st3 flds3 hmf
      rw [hmf] at h
      simp only [Prod.mk.injEq] at h
      refine ⟨Δ1 ++ Δ2, ?_⟩
      rw [← h.1, hΔ2, hΔ1]
      simp
end

mutual
/-- Decoding a node only allocates: existing heap objects and visited
entries are untouched, and the visited table grows by appending. -/
theorem unprepare_frame :
    ∀ (st : DState) (pn : PNode) (st1 : DState) (v : V),
      unprepare st pn = .ok (st1, v) →
      st.heap.length ≤ st1.heap.length ∧
      (∀ i, i < st.heap.length → st1.heap.getD i [] = st.heap.getD i []) ∧
      ∃ Δ, st1.seen = st.seen ++ Δ
  | st, .bare i, st1, v, h => by
      simp only [unprepare, Except.ok.injEq, Prod.mk.injEq] at h
      exact ⟨by rw [← h.1], fun i _ => by rw [← h.1], ⟨[], by rw [← h.1]; simp⟩⟩
  | st, .number s, st1, v, h => by
      simp only [unprepare, Except.ok.injEq, Prod.mk.injEq] at h
      exact ⟨by rw [← h.1], fun i _ => by rw [← h.1], ⟨[], by rw [← h.1]; simp⟩⟩
  | st, .json s, st1, v, h => by
      rw [unprepare] at h
      split at h
      · simp only [Except.ok.injEq, Prod.mk.injEq] at h
        exact ⟨by rw [← h.1], fun i _ => by rw [← h.1], ⟨[], by rw [← h.1]; simp⟩⟩
      · exact absurd h (by simp)
  | st, .raw t, st1, v, h => by
      match t with
      | .num i =>
          simp only [unprepare, Except.ok.injEq, Prod.mk.injEq] at h
          exact ⟨by rw [← h.1], fun i _ => by rw [← h.1], ⟨[], by rw [← h.1]; simp⟩⟩
      | .str s =>
          simp only [unprepare, Except.ok.injEq, Prod.mk.injEq] at h
          exact ⟨by rw [← h.1], fun i _ => by rw [← h.1], ⟨[], by rw [← h.1]; simp⟩⟩
      | .bool b =>
          simp only [unprepare, Except.ok.injEq, Prod.mk.injEq] at h
          exact ⟨by rw [← h.1], fun i _ => by rw [← h.1], ⟨[], by rw [← h.1]; simp⟩⟩
      | .obj fs =>
          rw [unprepare] at h
          rcases hm : materialize st (.obj fs) with ⟨stm, vm⟩
          obtain ⟨Δ, hΔ⟩ := materialize_frame st (.obj fs) stm vm hm
          rw [hm] at h
          simp only [Except.ok.injEq, Prod.mk.injEq] at h
          refine ⟨?_, ?_, ⟨[], ?_⟩⟩
          · rw [← h.1, hΔ]
            simp
          · intro i hi
            rw [← h.1, hΔ]
            simp only
            exact List.getD_append _ _ _ _ hi
          · rw [← h.1, hΔ]
            simp
  | st, .undefTag, st1, v, h => by
      simp only [unprepare, Except.ok.injEq, Prod.mk.injEq] at h
      exact ⟨by rw [← h.1], fun i _ => by rw [← h.1], ⟨[], by rw [← h.1]; simp⟩⟩
  | st, .seenTag i, st1, v, h => by
      rw [unprepare] at h
      split at h
      · simp only [Except.ok.injEq, Prod.mk.injEq] at h
        exact ⟨by rw [← h.1], fun i _ => by rw [← h.1], ⟨[], by rw [← h.1]; simp⟩⟩
      · exact absurd h (by simp)
  | st, .objTag ps, st1, v, h => by
      rw [unprepare] at h
      split at h
      · next st2 hprops =>
          simp only [Except.ok.injEq, Prod.mk.injEq] at h
          obtain ⟨hlen, hframe, Δ, hΔ⟩ :=
            unprepareProps_frame ⟨st.heap ++ [[]], st.seen ++ [.ref st.heap.length]⟩
              st.heap.length ps st2 hprops
          refine ⟨?_, ?_, ⟨[.ref st.heap.length] ++ Δ, ?_⟩⟩
          · rw [← h.1]
            simp only [List.length_append, List.length_singleton] at hlen
            omega
          · intro i hi
            rw [← h.1]
            rw [hframe i (by simp; omega) (by omega)]
            simp only
            exact List.getD_append _ _ _ _ hi
          · rw [← h.1, hΔ]
            simp
      · exact absurd h (by simp)

/-- The property loop mutates only the target object and fresh
allocations. -/
theorem unprepareProps_frame :
    ∀ (st : DState) (a : Addr) (ps : PFields) (st1 : DState),
      unprepareProps st a ps = .ok st1 →
      st.heap.length ≤ st1.heap.length ∧
      (∀ i, i < st.heap.length → i ≠ a → st1.heap.getD i [] = st.heap.getD i []) ∧
      ∃ Δ, st1.seen = st.seen ++ Δ
  | st, a, .nil, st1, h => by
      simp only [unprepareProps, Except.ok.injEq] at h
      exact ⟨by rw [← h], fun i _ _ => by rw [← h], ⟨[], by rw [← h]; simp⟩⟩
  | st, a, .cons k pn rest, st1, h => by
      rw [unprepareProps] at h
      split at h
      · next stv vv hv =>
          obtain ⟨hlen1, hframe1, Δ1, hΔ1⟩ := unprepare_frame st pn stv vv hv
          obtain ⟨hlen2, hframe2, Δ2, hΔ2⟩ :=
            unprepareProps_frame ⟨heapSet stv.heap a k vv, stv.seen⟩ a rest st1 h
          refine ⟨?_, ?_, ⟨Δ1 ++ Δ2, ?_⟩⟩
          · simp only [heapSet_length] at hlen2
            omega
          · intro i hi hia
            rw [hframe2 i (by simp only [heapSet_length]; omega) hia]
            simp only
            rw [heapSet_getD_ne stv.heap k vv hia]
            exact hframe1 i hi
          · rw [hΔ2]
            simp only
            rw [hΔ1, List.append_assoc]
      · exact absurd h (by simp)
end

/-- Decoding the node `prepare$number` emitted reproduces the number
exactly. -/
theorem unprepare_numNode (st : DState) (n : JSNum) :
    unprepare st (numNode n) = .ok (st, .num n) := by
  cases n <;> rfl

/-- Decoding a `raw` node always succeeds and leaves the visited table
unchanged. -/
theorem unprepare_raw_ok (st : DState) (t : PTree) :
    ∃ stv v, unprepare st (.raw t) = .ok (stv, v) ∧ stv.seen = st.seen ∧
      st.heap.length ≤ stv.heap.length := by
  match t with
  | .num i => exact ⟨st, .num (.fin i), rfl, rfl, le_refl _⟩
  | .str s => exact ⟨st, .str s, rfl, rfl, le_refl _⟩
  | .bool b => exact ⟨st, .bool b, rfl, rfl, le_refl _⟩
  | .obj fs =>
      rcases hm : materialize st (.obj fs) with ⟨stm, vm⟩
      obtain ⟨Δ, hΔ⟩ := materialize_frame st (.obj fs) stm vm hm
      refine ⟨stm, vm, ?_, ?_, ?_⟩
      · rw [unprepare, hm]
      · rw [hΔ]
      · rw [hΔ]
        simp

/-- The snapshot of a string is that string. -/
theorem snapGo_val_str {H : Heap} {fuel : Nat} {s : String} {t : PTree}
    (h : snapGo H fuel (.val (.str s)) = some (.tree t)) : t = .str s := by
  match fuel with
  | 0 => exact absurd h (by simp [snapGo])
  | fuel + 1 =>
      rw [snapGo] at h
      simp only [Option.some.injEq, SOut.tree.injEq] at h
      exact h.symm

/-- The snapshot of a boolean is that boolean. -/
theorem snapGo_val_bool {H : Heap} {fuel : Nat} {b : Bool} {t : PTree}
    (h : snapGo H fuel (.val (.bool b)) = some (.tree t)) : t = .bool b := by
  match fuel with
  | 0 => exact absurd h (by simp [snapGo])
  | fuel + 1 =>
      rw [snapGo] at h
      simp only [Option.some.injEq, SOut.tree.injEq] at h
      exact h.symm

/-- `undefined` has no JSON snapshot. -/
theorem snapGo_val_undef {H : Heap} {fuel : Nat} :
    snapGo H fuel (.val .undef) = none := by
  match fuel with
  | 0 => simp [snapGo]
  | fuel + 1 => rw [snapGo]

/-! #### The encode/decode correspondence -/

/-- How the decoding of one encoded value relates to the original, given
the final encode (`E`) and decode (`D`) visited tables: scalars decode to
themselves; a reference to a visited object decodes to the table entry at
the *same index* the object occupies on the encode side; a reference that
never entered the table was primitive-like (it was raw-encoded, and its
decode is an independent copy carrying no aliasing guarantee). -/
def fieldRel (H : Heap) (E : List Addr) (D : List V) : V → V → Prop
  | .ref c, vD =>
      (c ∈ E → vD = D.getD (E.indexOf c) .undef) ∧ (c ∉ E → PLtrueV H (.ref c))
  | vE, vD => vD = vE

/-- Entry `i` of the visited tables corresponds: the encode side recorded
address `a`, the decode side holds a reference to a fresh address `b`
(allocated at or after heap position `lo`), and the decoded object's
property list matches the original's key for key with `fieldRel` values. -/
def entryCorr (H : Heap) (E : List Addr) (st : DState) (lo : Nat) (i : Nat) : Prop :=
  ∃ a b, E.get? i = some a ∧ st.seen.get? i = some (V.ref b) ∧
    lo ≤ b ∧ b < st.heap.length ∧
    List.Forall₂ (fun f g => g.1 = f.1 ∧ fieldRel H E st.seen f.2 g.2)
      (H.getD a []) (st.heap.getD b [])

theorem fieldRel_mono {H : Heap} {E : List Addr} {D : List V}
    {E' : List Addr} {D' : List V}
    (hE : ∃ Δ, E' = E ++ Δ) (hD : ∃ Δ, D' = D ++ Δ)
    (hlen : D.length = E.length) (hnpl : NPL H E') {vE vD : V} :
    fieldRel H E D vE vD → fieldRel H E' D' vE vD := by
  obtain ⟨Δe, rfl⟩ := hE
  obtain ⟨Δd, rfl⟩ := hD
  cases vE with
  | ref c =>
      rintro ⟨h1, h2⟩
      constructor
      · intro hc'
        by_cases hc : c ∈ E
        · rw [List.indexOf_append_of_mem hc]
          rw [List.getD_append _ _ _ _ (by
            rw [hlen]
            exact List.indexOf_lt_length.mpr hc)]
          exact h1 hc
        · exact absurd (h2 hc) (hnpl c hc')
      · intro hc'
        exact h2 (fun hc => hc' (List.mem_append.mpr (.inl hc)))
  | num n => exact id
  | str s => exact id
  | bool b => exact id
  | undef => exact id

theorem entryCorr_mono {H : Heap} {E : List Addr} {st : DState}
    {E' : List Addr} {st' : DState} {lo lo' i : Nat}
    (hE : ∃ Δ, E' = E ++ Δ) (hD : ∃ Δ, st'.seen = st.seen ++ Δ)
    (hlen : st.seen.length = E.length) (hnpl : NPL H E')
    (hheap : ∀ b, lo ≤ b → b < st.heap.length →
      st'.heap.getD b [] = st.heap.getD b [])
    (hhlen : st.heap.length ≤ st'.heap.length)
    (hlo : lo' ≤ lo) :
    entryCorr H E st lo i → entryCorr H E' st' lo' i := by
  rintro ⟨a, b, ha, hb, hblo, hblt, hfa⟩
  have hiE : i < E.length := by
    by_contra hcon
    rw [List.get?_eq_none.mpr (by omega)] at ha
    exact absurd ha (by simp)
  have hiD : i < st.seen.length := by
    by_contra hcon
    rw [List.get?_eq_none.mpr (by omega)] at hb
    exact absurd hb (by simp)
  refine ⟨a, b, ?_, ?_, le_trans hlo hblo, lt_of_lt_of_le hblt hhlen, ?_⟩
  · obtain ⟨Δe, rfl⟩ := hE
    rw [List.get?_append hiE]
    exact ha
  · obtain ⟨Δd, hΔd⟩ := hD
    rw [hΔd, List.get?_append hiD]
    exact hb
  · rw [hheap b hblo hblt]
    exact hfa.imp (fun f g hfg => ⟨hfg.1, fieldRel_mono hE hD hlen hnpl hfg.2⟩)

/-- A weaker allocation floor preserves entry correspondence. -/
theorem entryCorr_lo_weaken {H : Heap} {E : List Addr} {st : DState}
    {lo lo' i : Nat} (h : lo' ≤ lo) :
    entryCorr H E st lo i → entryCorr H E st lo' i := by
  rintro ⟨a, b, h1, h2, h3, h4, h5⟩
  exact ⟨a, b, h1, h2, by omega, h4, h5⟩

/-- The value-task conclusion of the simulation: decoding the node the
encoder produced succeeds, the decode visited table keeps pace with the
encode one entry for entry, the non-primitive-like invariant persists,
the decoded root relates to the source value, and every entry pushed
during this task is fully reconstructed at a fresh address. -/
@[reducible] def simValPost (H : Heap) (E0 E1 : List Addr) (pn : PNode)
    (st0 : DState) (v : V) : Prop :=
  ∃ st1 vD, unprepare st0 pn = .ok (st1, vD) ∧
    st1.seen.length = E1.length ∧ NPL H E1 ∧
    fieldRel H E1 st1.seen v vD ∧
    ∀ i, E0.length ≤ i → i < E1.length → entryCorr H E1 st1 st0.heap.length i

/-- The property-loop conclusion of the simulation: the decode loop
succeeds, appends the decoded properties to the target object in source
order with related values, and reconstructs every entry pushed during the
loop. -/
@[reducible] def simFieldsPost (H : Heap) (E0 E1 : List Addr) (ps : PFields)
    (st0 : DState) (b : Addr) (flds : Obj) : Prop :=
  ∃ st1, unprepareProps st0 b ps = .ok st1 ∧
    st1.seen.length = E1.length ∧ NPL H E1 ∧
    (∃ nf, st1.heap.getD b [] = st0.heap.getD b [] ++ nf ∧
      List.Forall₂ (fun f g => g.1 = f.1 ∧ fieldRel H E1 st1.seen f.2 g.2)
        flds nf) ∧
    ∀ i, E0.length ≤ i → i < E1.length → entryCorr H E1 st1 st0.heap.length i

/-- Induction statement for value tasks at a given fuel. -/
@[reducible] def simValIH (H : Heap) (fuel : Nat) : Prop :=
  ∀ (v : V) (E0 E1 : List Addr) (pn : PNode),
    prepGo H fuel E0 (.val v) = some (E1, .node pn) →
    NPL H E0 →
    ∀ st0 : DState, st0.seen.length = E0.length →
      simValPost H E0 E1 pn st0 v

/-- Induction statement for property-loop tasks at a given fuel. -/
@[reducible] def simFieldsIH (H : Heap) (fuel : Nat) : Prop :=
  ∀ (flds : Obj) (E0 E1 : List Addr) (ps : PFields),
    prepGo H fuel E0 (.fields flds) = some (E1, .fields ps) →
    NPL H E0 →
    ∀ (st0 : DState) (b : Addr), st0.seen.length = E0.length →
      b < st0.heap.length →
      ((st0.heap.getD b []).map Prod.fst ++ flds.map Prod.fst).Nodup →
      simFieldsPost H E0 E1 ps st0 b flds

/-- The fresh-entry case of the simulation: when the encoder pushes `a`
on its visited table and recurses over the fields, the decoder's `objTag`
path pushes a fresh reference *before* running the property loop and
rebuilds the entry at the same table index. -/
theorem simGo_push_case (H : Heap) (hwf : heapWF H) (fuel : Nat)
    (ihF : simFieldsIH H fuel) (a : Addr) (E0 E2 : List Addr) (ps : PFields)
    (hrec : prepGo H fuel (E0 ++ [a]) (.fields (H.getD a [])) =
      some (E2, .fields ps))
    (hnpl : NPL H E0) (st0 : DState) (hlen0 : st0.seen.length = E0.length)
    (hipl : iplGo H fuel E0 (.val (.ref a)) = some false)
    (ha : a ∉ E0) : simValPost H E0 E2 (.objTag ps) st0 (.ref a) := by
  have hnotpl : ¬ PLtrueV H (.ref a) := not_PLtrueV_of_ipl_false hipl hnpl
  have hnpl' : NPL H (E0 ++ [a]) := by
    intro d hd
    rcases List.mem_append.mp hd with hd | hd
    · exact hnpl d hd
    · rw [List.mem_singleton.mp hd]
      exact hnotpl
  have hne : H.getD a [] ≠ [] := by
    cases fuel with
    | zero => exact absurd hipl (by simp [iplGo])
    | succ f =>
        rw [iplGo] at hipl
        intro he
        rw [if_pos he] at hipl
        exact absurd hipl (by simp)
  have halt : a < H.length := by
    by_contra hge
    push_neg at hge
    exact hne (List.getD_eq_default H [] hge)
  have hmem_a : H.getD a [] ∈ H := by
    rw [List.getD_eq_getElem H [] halt]
    exact List.getElem_mem halt
  have hndk : ((H.getD a []).map Prod.fst).Nodup := (hwf _ hmem_a).1
  have hfresh : (st0.heap ++ [[]]).getD st0.heap.length [] = ([] : Obj) := by
    rw [List.getD_append_right _ _ _ _ (le_refl _)]
    simp
  obtain ⟨st1, hprops, hlen1, hnpl1, ⟨nf, hgetb, hfa⟩, hent⟩ :=
    ihF (H.getD a []) (E0 ++ [a]) E2 ps hrec hnpl'
      ⟨st0.heap ++ [[]], st0.seen ++ [.ref st0.heap.length]⟩ st0.heap.length
      (by
        show (st0.seen ++ [V.ref st0.heap.length]).length = (E0 ++ [a]).length
        simp [hlen0])
      (by
        show st0.heap.length < (st0.heap ++ [[]]).length
        simp)
      (by
        show (((st0.heap ++ [[]]).getD st0.heap.length []).map Prod.fst ++
          (H.getD a []).map Prod.fst).Nodup
        rw [hfresh]
        simpa using hndk)
  obtain ⟨hplen, hpframe, Δd, hΔd⟩ :=
    unprepareProps_frame ⟨st0.heap ++ [[]], st0.seen ++ [.ref st0.heap.length]⟩
      st0.heap.length ps st1 hprops
  obtain ⟨Δe, hΔe⟩ := prepGo_seen_extends H fuel (E0 ++ [a]) _ _ _ hrec
  have hamem : a ∈ E2 := by
    rw [hΔe]
    simp
  have hidxa : E2.indexOf a = E0.length := by
    rw [hΔe, List.indexOf_append_of_mem (by simp : a ∈ E0 ++ [a]),
        List.indexOf_append_of_not_mem ha]
    simp
  have hseen1 : st1.seen = (st0.seen ++ [V.ref st0.heap.length]) ++ Δd := hΔd
  have hgetseen : st1.seen.getD E0.length .undef = V.ref st0.heap.length := by
    rw [hseen1]
    rw [List.getD_append _ _ _ _ (by simp [hlen0])]
    rw [List.getD_append_right _ _ _ _ hlen0.le]
    simp [hlen0]
  refine ⟨st1, .ref st0.heap.length, ?_, hlen1, hnpl1, ?_, ?_⟩
  · rw [unprepare, hprops]
  · refine ⟨fun _ => ?_, fun hc => absurd hamem hc⟩
    rw [hidxa, hgetseen]
  · intro i hi hi'
    rcases Nat.lt_or_ge E0.length i with hgt | hle
    · refine entryCorr_lo_weaken ?_ (hent i ?_ hi')
      · show st0.heap.length ≤ (st0.heap ++ [[]]).length
        simp
      · show (E0 ++ [a]).length ≤ i
        simp
        omega
    · have hieq : i = E0.length := by omega
      subst hieq
      have hplen' : st0.heap.length + 1 ≤ st1.heap.length := by
        have h0 : (st0.heap ++ [[]]).length ≤ st1.heap.length := hplen
        simpa using h0
      refine ⟨a, st0.heap.length, ?_, ?_, le_refl _, lt_of_lt_of_le (Nat.lt_succ_self _) hplen', ?_⟩
      · rw [hΔe]
        rw [List.get?_append (by simp : E0.length < (E0 ++ [a]).length)]
        rw [List.get?_append_right (le_refl E0.length)]
        simp
      · rw [hseen1]
        rw [List.get?_append
          (by simp [hlen0] : E0.length < (st0.seen ++ [V.ref st0.heap.length]).length)]
        rw [List.get?_append_right hlen0.le]
        simp [hlen0]
      · have hgb : st1.heap.getD st0.heap.length [] =
            (st0.heap ++ [[]]).getD st0.heap.length [] ++ nf := hgetb
        rw [hgb, hfresh]
        simpa using hfa

/-- The property-loop case of the simulation: each field decodes from the
loop's current state, is assigned to the target object as a fresh key,
and the loop continues; source order and the visited-table discipline are
both preserved. -/
theorem simGo_fields_case (H : Heap) (fuel : Nat)
    (ihV : simValIH H fuel) (ihF : simFieldsIH H fuel)
    (flds : Obj) (E0 E1 : List Addr) (ps : PFields)
    (h : prepGo H (fuel + 1) E0 (.fields flds) = some (E1, .fields ps))
    (hnpl : NPL H E0) (st0 : DState) (b : Addr)
    (hlen0 : st0.seen.length = E0.length) (hblt : b < st0.heap.length)
    (hnd : ((st0.heap.getD b []).map Prod.fst ++ flds.map Prod.fst).Nodup) :
    simFieldsPost H E0 E1 ps st0 b flds := by
  match flds with
  | [] =>
      rw [prepGo] at h
      simp only [Option.some.injEq, Prod.mk.injEq, EOut.fields.injEq] at h
      obtain ⟨rfl, rfl⟩ := h
      refine ⟨st0, rfl, hlen0, hnpl, ⟨[], by simp, List.Forall₂.nil⟩, ?_⟩
      intro i hi hi'
      omega
  | (k, v) :: rest =>
      have hnd2 : ((st0.heap.getD b []).map Prod.fst ++
          k :: rest.map Prod.fst).Nodup := by simpa using hnd
      have hkey : k ∉ (st0.heap.getD b []).map Prod.fst := by
        have h2 := hnd2
        rw [List.nodup_append] at h2
        intro hmem
        exact h2.2.2 hmem (List.mem_cons_self _ _)
      have hcont : ∀ (E2 E3 : List Addr) (st2 : DState) (pnc : PNode)
          (vD : V) (ps' : PFields),
          prepGo H fuel E2 (.fields rest) = some (E3, .fields ps') →
          unprepare st0 pnc = .ok (st2, vD) →
          st2.seen.length = E2.length →
          NPL H E2 →
          fieldRel H E2 st2.seen v vD →
          (∀ i, E0.length ≤ i → i < E2.length →
            entryCorr H E2 st2 st0.heap.length i) →
          st0.heap.length ≤ st2.heap.length →
          (∀ i, i < st0.heap.length →
            st2.heap.getD i [] = st0.heap.getD i []) →
          (∃ Δ, st2.seen = st0.seen ++ Δ) →
          simFieldsPost H E0 E3 (.cons k pnc ps') st0 b ((k, v) :: rest) := by
        intro E2 E3 st2 pnc vD ps' hrest hdec hlen2 hnpl2 hfr hent2 hhlen2
          hhfr2 hsext2
        have hblt2 : b < st2.heap.length := lt_of_lt_of_le hblt hhlen2
        have hset : (heapSet st2.heap b k vD).getD b [] =
            st0.heap.getD b [] ++ [(k, vD)] := by
          rw [heapSet_getD_self st2.heap k vD hblt2, hhfr2 b hblt,
            setField_append vD hkey]
        obtain ⟨st1, hprops, hlen3, hnpl3, ⟨nfr, hgetb3, hfar⟩, hent3⟩ :=
          ihF rest E2 E3 ps' hrest hnpl2 ⟨heapSet st2.heap b k vD, st2.seen⟩ b
            hlen2
            (by
              show b < (heapSet st2.heap b k vD).length
              rw [heapSet_length]
              exact hblt2)
            (by
              show (((heapSet st2.heap b k vD).getD b []).map Prod.fst ++
                rest.map Prod.fst).Nodup
              rw [hset]
              simpa [List.append_assoc] using hnd2)
        obtain ⟨hplen, hpfr, Δd, hΔd⟩ :=
          unprepareProps_frame ⟨heapSet st2.heap b k vD, st2.seen⟩ b ps' st1
            hprops
        have hEext : ∃ Δ, E3 = E2 ++ Δ :=
          prepGo_seen_extends H fuel E2 _ _ _ hrest
        have hsext3 : ∃ Δ, st1.seen = st2.seen ++ Δ := ⟨Δd, hΔd⟩
        have hpfr' : ∀ i, i < st2.heap.length → i ≠ b →
            st1.heap.getD i [] = (heapSet st2.heap b k vD).getD i [] := by
          intro i hi hib
          exact hpfr i
            (by
              show i < (heapSet st2.heap b k vD).length
              rw [heapSet_length]
              exact hi) hib
        have hplen' : st2.heap.length ≤ st1.heap.length := by
          have h0 : (heapSet st2.heap b k vD).length ≤ st1.heap.length := hplen
          rw [heapSet_length] at h0
          exact h0
        refine ⟨st1, ?_, hlen3, hnpl3, ?_, ?_⟩
        · rw [unprepareProps, hdec]
          exact hprops
        · refine ⟨(k, vD) :: nfr, ?_, ?_⟩
          · have hgb : st1.heap.getD b [] =
                (heapSet st2.heap b k vD).getD b [] ++ nfr := hgetb3
            rw [hgb, hset, List.append_assoc]
            rfl
          · exact List.Forall₂.cons
              ⟨rfl, fieldRel_mono hEext hsext3 hlen2 hnpl3 hfr⟩ hfar
        · intro i hi0 hi3
          by_cases hiE2 : i < E2.length
          · refine entryCorr_mono hEext hsext3 hlen2 hnpl3 ?_ hplen'
              (le_refl _) (hent2 i hi0 hiE2)
            intro c hclo hclt
            have hbb : b < st0.heap.length := hblt
            have hcb : c ≠ b := Nat.ne_of_gt (lt_of_lt_of_le hbb hclo)
            rw [hpfr' c hclt hcb, heapSet_getD_ne st2.heap k vD hcb]
          · refine entryCorr_lo_weaken ?_ (hent3 i (by omega) hi3)
            show st0.heap.length ≤ (heapSet st2.heap b k vD).length
            rw [heapSet_length]
            omega
      cases v with
      | num n =>
          rw [prepGo] at h
          split at h
          · next E3 ps' hrest =>
              simp only [Option.some.injEq, Prod.mk.injEq,
                EOut.fields.injEq] at h
              obtain ⟨rfl, rfl⟩ := h
              exact hcont E0 E3 st0 (numNode n) (.num n) ps' hrest
                (unprepare_numNode st0 n) hlen0 hnpl (by simp [fieldRel])
                (fun i hi hi' => absurd hi' (by omega)) (le_refl _)
                (fun i _ => rfl) ⟨[], by simp⟩
          · exact absurd h (by simp)
      | str s =>
          rw [prepGo] at h
          split at h
          · next E3 ps' hrest =>
              simp only [Option.some.injEq, Prod.mk.injEq,
                EOut.fields.injEq] at h
              obtain ⟨rfl, rfl⟩ := h
              exact hcont E0 E3 st0 (.raw (.str s)) (.str s) ps' hrest rfl
                hlen0 hnpl (by simp [fieldRel])
                (fun i hi hi' => absurd hi' (by omega)) (le_refl _)
                (fun i _ => rfl) ⟨[], by simp⟩
          · exact absurd h (by simp)
      | bool bb =>
          rw [prepGo] at h
          split at h
          · next E3 ps' hrest =>
              simp only [Option.some.injEq, Prod.mk.injEq,
                EOut.fields.injEq] at h
              obtain ⟨rfl, rfl⟩ := h
              exact hcont E0 E3 st0 (.raw (.bool bb)) (.bool bb) ps' hrest rfl
                hlen0 hnpl (by simp [fieldRel])
                (fun i hi hi' => absurd hi' (by omega)) (le_refl _)
                (fun i _ => rfl) ⟨[], by simp⟩
          · exact absurd h (by simp)
      | undef =>
          rw [prepGo] at h
          split at h
          · next E3 ps' hrest =>
              simp only [Option.some.injEq, Prod.mk.injEq,
                EOut.fields.injEq] at h
              obtain ⟨rfl, rfl⟩ := h
              exact hcont E0 E3 st0 .undefTag .undef ps' hrest rfl
                hlen0 hnpl (by simp [fieldRel])
                (fun i hi hi' => absurd hi' (by omega)) (le_refl _)
                (fun i _ => rfl) ⟨[], by simp⟩
          · exact absurd h (by simp)
      | ref c =>
          rw [prepGo] at h
          by_cases hc : c ∈ E0
          · rw [if_pos hc] at h
            simp only [] at h
            split at h
            · next E3 ps' hrest =>
                simp only [Option.some.injEq, Prod.mk.injEq,
                  EOut.fields.injEq] at h
                obtain ⟨rfl, rfl⟩ := h
                have hidx : E0.indexOf c < st0.seen.length := by
                  rw [hlen0]
                  exact List.indexOf_lt_length.mpr hc
                refine hcont E0 E3 st0 (.seenTag (E0.indexOf c))
                  (st0.seen.get ⟨E0.indexOf c, hidx⟩) ps' hrest ?_ hlen0 hnpl
                  ?_ (fun i hi hi' => absurd hi' (by omega)) (le_refl _)
                  (fun i _ => rfl) ⟨[], by simp⟩
                · rw [unprepare, dif_pos hidx]
                · refine ⟨fun _ => ?_, fun hmem => absurd hc hmem⟩
                  rw [List.getD_eq_getElem _ _ hidx]
                  simp [List.get_eq_getElem]
            · exact absurd h (by simp)
          · rw [if_neg hc] at h
            rcases hrec : prepGo H fuel E0 (.val (.ref c)) with _ | ⟨E2, out2⟩
            · rw [hrec] at h
              exact absurd h (by simp)
            · rw [hrec] at h
              cases out2 with
              | fields ps2 => exact absurd h (by simp)
              | node pn2 =>
                  simp only [] at h
                  split at h
                  · next E3 ps' hrest =>
                      simp only [Option.some.injEq, Prod.mk.injEq,
                        EOut.fields.injEq] at h
                      obtain ⟨rfl, rfl⟩ := h
                      obtain ⟨st2, vD, hdec, hlen2, hnpl2, hfr, hent2⟩ :=
                        ihV (.ref c) E0 E2 pn2 hrec hnpl st0 hlen0
                      obtain ⟨hl2, hf2, hs2⟩ :=
                        unprepare_frame st0 pn2 st2 vD hdec
                      exact hcont E2 E3 st2 pn2 vD ps' hrest hdec hlen2 hnpl2
                        hfr hent2 hl2 hf2 hs2
                  · exact absurd h (by simp)

/-- The central simulation: on this fragment, decoding what `prepare`
encoded replays the encoder's visited-table discipline exactly — the
decode table is appended to in the same relative order, every back
reference resolves to the reconstruction of the encode-side entry of the
same index, and every constructed object is entered in the table before
its properties are decoded. -/
theorem simGo (H : Heap) (hwf : heapWF H) :
    ∀ fuel : Nat, simValIH H fuel ∧ simFieldsIH H fuel := by
  intro fuel
  induction fuel with
  | zero =>
      constructor
      · intro v E0 E1 pn h
        exact absurd h (by simp [prepGo])
      · intro flds E0 E1 ps h
        exact absurd h (by simp [prepGo])
  | succ fuel ih =>
      obtain ⟨ihV, ihF⟩ := ih
      constructor
      · -- value task
        intro v E0 E1 pn h hnpl st0 hlen0
        match v with
        | .num n =>
            rw [prepGo] at h
            simp only [Option.some.injEq, Prod.mk.injEq, EOut.node.injEq] at h
            obtain ⟨rfl, rfl⟩ := h
            refine ⟨st0, .num n, unprepare_numNode st0 n, hlen0, hnpl, ?_, ?_⟩
            · simp [fieldRel]
            · intro i hi hi'
              omega
        | .str s =>
            rw [prepGo] at h
            split at h
            · exact absurd h (by simp)
            · split at h
              · next t hsnap =>
                  simp only [Option.some.injEq, Prod.mk.injEq, EOut.node.injEq] at h
                  obtain ⟨rfl, rfl⟩ := h
                  rw [snapGo_val_str hsnap]
                  refine ⟨st0, .str s, rfl, hlen0, hnpl, ?_, ?_⟩
                  · simp [fieldRel]
                  · intro i hi hi'
                    omega
              · exact absurd h (by simp)
            · exact absurd h (by simp)
        | .bool bv =>
            rw [prepGo] at h
            split at h
            · exact absurd h (by simp)
            · split at h
              · next t hsnap =>
                  simp only [Option.some.injEq, Prod.mk.injEq, EOut.node.injEq] at h
                  obtain ⟨rfl, rfl⟩ := h
                  rw [snapGo_val_bool hsnap]
                  refine ⟨st0, .bool bv, rfl, hlen0, hnpl, ?_, ?_⟩
                  · simp [fieldRel]
                  · intro i hi hi'
                    omega
              · exact absurd h (by simp)
            · exact absurd h (by simp)
        | .undef =>
            rw [prepGo] at h
            split at h
            · exact absurd h (by simp)
            · split at h
              · next t hsnap => exact absurd hsnap (by simp [snapGo_val_undef])
              · exact absurd h (by simp)
            · simp only [Option.some.injEq, Prod.mk.injEq, EOut.node.injEq] at h
              obtain ⟨rfl, rfl⟩ := h
              refine ⟨st0, .undef, rfl, hlen0, hnpl, ?_, ?_⟩
              · simp [fieldRel]
              · intro i hi hi'
                omega
        | .ref a =>
            rw [prepGo] at h
            split at h
            · exact absurd h (by simp)
            · next hipl =>
                split at h
                · next t hsnap =>
                    simp only [Option.some.injEq, Prod.mk.injEq, EOut.node.injEq] at h
                    obtain ⟨rfl, rfl⟩ := h
                    obtain ⟨stv, vD, hok, hseq, hhl⟩ := unprepare_raw_ok st0 t
                    have hpl : PLtrueV H (.ref a) := PLtrueV_of_iplGo_true hipl
                    refine ⟨stv, vD, hok, by rw [hseq]; exact hlen0, hnpl, ?_, ?_⟩
                    · exact ⟨fun hmem => absurd hpl (hnpl a hmem), fun _ => hpl⟩
                    · intro i hi hi'
                      omega
                · exact absurd h (by simp)
            · next hipl =>
                by_cases ha : a ∈ E0
                · rw [if_pos ha] at h
                  simp only [Option.some.injEq, Prod.mk.injEq, EOut.node.injEq] at h
                  obtain ⟨rfl, rfl⟩ := h
                  have hidx : E0.indexOf a < st0.seen.length := by
                    rw [hlen0]
                    exact List.indexOf_lt_length.mpr ha
                  refine ⟨st0, st0.seen.get ⟨E0.indexOf a, hidx⟩, ?_, hlen0, hnpl, ?_, ?_⟩
                  · rw [unprepare]
                    rw [dif_pos hidx]
                  · refine ⟨fun hmem => ?_, fun hmem => absurd ha hmem⟩
                    rw [List.getD_eq_getElem _ _ hidx]
                    simp [List.get_eq_getElem]
                  · intro i hi hi'
                    omega
                · rw [if_neg ha] at h
                  split at h
                  · next E2 ps hrec =>
                      simp only [Option.some.injEq, Prod.mk.injEq, EOut.node.injEq] at h
                      obtain ⟨rfl, rfl⟩ := h
                      exact simGo_push_case H hwf fuel ihF a E0 E2 ps hrec hnpl st0 hlen0 hipl ha
                  · exact absurd h (by simp)
      · -- fields task
        intro flds E0 E1 ps h hnpl st0 b hlen0 hblt hnd
        exact simGo_fields_case H fuel ihV ihF flds E0 E1 ps h hnpl st0 b hlen0 hblt hnd

/-! #### From the simulation to the round-trip claims -/

/-- `prepare` succeeds exactly when the walker returns a node. -/
theorem prepare_inv {fuel : Nat} {H : Heap} {seen E1 : List Addr} {v : V}
    {pn : PNode} (h : prepare fuel H seen v = some (E1, pn)) :
    prepGo H fuel seen (.val v) = some (E1, .node pn) := by
  unfold prepare at h
  split at h
  · next seen1 pn1 heq =>
      simp only [Option.some.injEq, Prod.mk.injEq] at h
      rw [h.1, h.2] at heq
      exact heq
  · exact absurd h (by simp)

/-- A `Forall₂` correspondence transports membership. -/
theorem forall2_mem_left {α β : Type} {R : α → β → Prop} {l₁ : List α}
    {l₂ : List β} (h : List.Forall₂ R l₁ l₂) {x : α} (hx : x ∈ l₁) :
    ∃ y ∈ l₂, R x y := by
  induction h with
  | nil => exact absurd hx (List.not_mem_nil x)
  | @cons a b l₁' l₂' hR hrest ih =>
      rcases List.mem_cons.mp hx with rfl | hx'
      · exact ⟨b, List.mem_cons_self b l₂', hR⟩
      · obtain ⟨y, hy, hRy⟩ := ih hx'
        exact ⟨y, List.mem_cons_of_mem b hy, hRy⟩

/-- Read a visited-table entry through `getD`. -/
theorem seen_getD_of_get? {l : List V} {i : Nat} {x : V}
    (h : l.get? i = some x) : l.getD i .undef = x := by
  rw [List.getD_eq_getElem?_getD, ← List.get?_eq_getElem?, h]
  rfl

/-- `indexOf` finds its element. -/
theorem get?_indexOf {l : List Addr} {a : Addr} (h : a ∈ l) :
    l.get? (l.indexOf a) = some a := by
  have hlt := List.indexOf_lt_length.mpr h
  rw [List.get?_eq_getElem?, List.getElem?_eq_getElem hlt,
    List.getElem_indexOf hlt]

/-- A successful lookup bounds the index. -/
theorem get?_some_lt {α : Type} {l : List α} {i : Nat} {x : α}
    (h : l.get? i = some x) : i < l.length := by
  by_contra hcon
  rw [List.get?_eq_none.mpr (by omega)] at h
  exact absurd h (by simp)

/-- A field loop that contains a reference back into the visited path is
never classified primitive-like. -/
theorem iplGo_fieldsLoop_ne_true (H : Heap) :
    ∀ (flds : Obj) (fuel : Nat) (S : List Addr),
      (∃ k c, (k, V.ref c) ∈ flds ∧ c ∈ S) →
      iplGo H fuel S (.fieldsLoop flds) ≠ some true := by
  intro flds
  induction flds with
  | nil =>
      rintro fuel S ⟨k, c, hmem, _⟩ _
      exact absurd hmem (List.not_mem_nil _)
  | cons kv rest ih =>
      obtain ⟨k0, v0⟩ := kv
      rintro fuel S ⟨k, c, hmem, hcS⟩ h
      cases fuel with
      | zero => exact absurd h (by simp [iplGo])
      | succ f =>
          rw [iplGo] at h
          by_cases hhit : iplSeenHit S v0 = true
          · rw [if_pos hhit] at h
            exact absurd h (by simp)
          · rw [if_neg hhit] at h
            rcases List.mem_cons.mp hmem with heq | hmem'
            · injection heq with h1 h2
              exact hhit (by rw [← h2]; simp [iplSeenHit, hcS])
            · rcases hv : iplGo H f S (.val v0) with _ | b
              · rw [hv] at h
                exact absurd h (by simp)
              · rw [hv] at h
                cases b
                · exact absurd h (by simp)
                · exact ih f S ⟨k, c, hmem', hcS⟩ h

/-- A self-referential object is never primitive-like: the classifier's
field loop finds the object itself in the visited path and answers
`false`. -/
theorem not_PLtrueV_self_ref {H : Heap} {a : Addr}
    (hbar : ∃ k, (k, V.ref a) ∈ H.getD a []) : ¬ PLtrueV H (.ref a) := by
  rintro ⟨F, hT⟩
  obtain ⟨k, hk⟩ := hbar
  cases F with
  | zero => exact absurd hT (by simp [iplGo])
  | succ f =>
      rw [iplGo] at hT
      by_cases he : H.getD a [] = []
      · rw [he] at hk
        exact absurd hk (List.not_mem_nil _)
      · rw [if_neg he] at hT
        exact iplGo_fieldsLoop_ne_true H (H.getD a []) f ([] ++ [a])
          ⟨k, a, hk, by simp⟩ hT

/-- The simulation, instantiated at the decoder's fresh initial state:
decoding a prepared root succeeds, the decode visited table matches the
encode table index for index, and the root relates to the source value. -/
theorem prepare_sim (H : Heap) (hwf : heapWF H) (fuel : Nat) (v : V)
    (E1 : List Addr) (pn : PNode)
    (henc : prepare fuel H [] v = some (E1, pn)) :
    ∃ st1 vD, unprepare ⟨[], []⟩ pn = .ok (st1, vD) ∧
      st1.seen.length = E1.length ∧ NPL H E1 ∧
      fieldRel H E1 st1.seen v vD ∧
      ∀ i, i < E1.length → entryCorr H E1 st1 0 i := by
  obtain ⟨st1, vD, hok, hlen, hnpl1, hfr, hent⟩ :=
    (simGo H hwf fuel).1 v [] E1 pn (prepare_inv henc)
      (fun a ha => absurd ha (List.not_mem_nil a)) ⟨[], []⟩ rfl
  refine ⟨st1, vD, hok, hlen, hnpl1, hfr, fun i hi => ?_⟩
  exact entryCorr_lo_weaken (Nat.zero_le _) (hent i (by simp) hi)

/-- The concrete self-referential object `v = {foo: 1}; v.bar = v`. -/
def Hcyc : Heap := [[("foo", V.num (.fin 1)), ("bar", V.ref 0)]]

/-- Its prepared node. -/
def pnCyc : PNode :=
  .objTag (.cons "foo" (.bare 1) (.cons "bar" (.seenTag 0) .nil))

/-- A concrete sharing heap: one non-primitive-like object (it owns an
`undefined` property) referenced along the two paths `p` and `q` of the
root. -/
def Hshare : Heap := [[("x", V.undef)], [("p", V.ref 0), ("q", V.ref 0)]]

/-- Its prepared node. -/
def pnShare : PNode :=
  .objTag (.cons "p" (.objTag (.cons "x" .undefTag .nil))
    (.cons "q" (.seenTag 1) .nil))

theorem Hcyc_wf : heapWF Hcyc := by
  intro o ho
  have ho' := List.mem_singleton.mp ho
  subst ho'
  refine ⟨by decide, ?_⟩
  intro kv hkv
  rcases List.mem_cons.mp hkv with rfl | hkv
  · trivial
  · have hkv' := List.mem_singleton.mp hkv
    subst hkv'
    show (0 : Nat) < Hcyc.length
    decide

theorem Hshare_wf : heapWF Hshare := by
  intro o ho
  rcases List.mem_cons.mp ho with rfl | ho
  · refine ⟨by decide, ?_⟩
    intro kv hkv
    have hkv' := List.mem_singleton.mp hkv
    subst hkv'
    trivial
  · have ho' := List.mem_singleton.mp ho
    subst ho'
    refine ⟨by decide, ?_⟩
    intro kv hkv
    rcases List.mem_cons.mp hkv with rfl | hkv
    · show (0 : Nat) < Hshare.length
      decide
    · have hkv' := List.mem_singleton.mp hkv
      subst hkv'
      show (0 : Nat) < Hshare.length
      decide

end Graph

namespace Arr

/-! ### `prepare$Array` run-length compression and its decode-side
expansion (src/kvin.js 749-771 and 372-392)

This fragment covers dense arrays whose elements are primitive-like
objects or arrays: the encoder prepares each element (yielding a
`raw`-wrapped JSON snapshot), collapses runs of elements with identical
serialized JSON into `{lst: n}` repeat markers, and the decoder expands a
marker by decoding the preceding prepared node `last` another `n` times.
Decoding a `raw` node whose payload is a plain object copies it afresh
each time (`Object.assign` on the first decode, `JSON.parse` of its
stringification under the `used` flag thereafter, src/kvin.js 238-246);
decoding a `raw` node whose payload is an *array* executes `return
po.raw` (line 248), handing out the one array produced by parsing the
wire text, identically on every decode. -/

/-- A `raw` payload of a primitive-like element: a plain object of
primitive properties or an array of primitive elements. -/
inductive RawPayload where
  | obj (fs : List (String × Int))
  | arr (els : List Int)
deriving Repr, DecidableEq

/-- Wire nodes of the prepared `arr` list: a prepared element or a repeat
marker. -/
inductive PNodeA where
  | raw (p : RawPayload)
  | lst (k : Nat)
deriving Repr, DecidableEq

/-- Parse-time nodes: `JSON.parse` creates one distinct mutable object
per wire node, modelled by a numeric identity. -/
inductive ANode where
  | prim (i : Int)
  | rawNode (id : Nat) (p : RawPayload)
  | lst (k : Nat)
deriving Repr, DecidableEq

/-- Decoded array slots: a primitive, or a reference to a decoded mutable
object. -/
inductive AVal where
  | num (i : Int)
  | ref (a : Nat)
deriving Repr, DecidableEq

/-- Decoder state: the decoded mutable objects, and the memo recording
which parse-time arrays have already been handed out by `return po.raw`
(the address each one surfaced at). -/
structure AState where
  heap : List RawPayload
  memo : List (Nat × Nat)
deriving Repr, DecidableEq

/-- The run-length compression of `prepare$Array` (src/kvin.js 756-771)
on this fragment: the serialized JSON of two prepared elements is equal
exactly when their payloads are equal, a run's first element stays and
the remainder of a run of length `k + 1` collapses into `{lst: k}`.  The
accumulator carries the current run. -/
def prepArrGo : Option (RawPayload × Nat) → List RawPayload → List PNodeA
  | none, [] => []
  | some (p, 0), [] => [.raw p]
  | some (p, k + 1), [] => [.raw p, .lst (k + 1)]
  | none, q :: rest => prepArrGo (some (q, 0)) rest
  | some (p, k), q :: rest =>
      if q = p then prepArrGo (some (p, k + 1)) rest
      else (if k = 0 then [PNodeA.raw p] else [PNodeA.raw p, PNodeA.lst k]) ++
        prepArrGo (some (q, 0)) rest

/-- `prepare$Array`'s `arr` list for this fragment. -/
def prepArr (els : List RawPayload) : List PNodeA :=
  prepArrGo none els

/-- `JSON.parse` of the wire: every node becomes a distinct object. -/
def parseWire : Nat → List PNodeA → List ANode
  | _, [] => []
  | n, .raw p :: rest => .rawNode n p :: parseWire (n + 1) rest
  | n, .lst k :: rest => .lst k :: parseWire (n + 1) rest

/-- Decode one prepared element (the `unprepare` cases reached from the
array loop): a plain-object `raw` payload is copied afresh on every
decode; an array `raw` payload is `return po.raw` — the first decode
surfaces the parse-time array and every later decode of the same node
returns that very object. -/
def decodeNode (st : AState) : ANode → Option (AState × AVal)
  | .prim i => some (st, .num i)
  | .rawNode _ (.obj fs) =>
      some (⟨st.heap ++ [.obj fs], st.memo⟩, .ref st.heap.length)
  | .rawNode id (.arr els) =>
      match st.memo.lookup id with
      | some a => some (st, .ref a)
      | none =>
          some (⟨st.heap ++ [.arr els], st.memo ++ [(id, st.heap.length)]⟩,
            .ref st.heap.length)
  | .lst _ => none

/-- The `for (let j = 0; j < po.arr[i].lst; j++)` expansion
(src/kvin.js 381-383): decode the remembered `last` node `k` times. -/
def decodeRep (st : AState) (ln : ANode) : Nat → Option (AState × List AVal)
  | 0 => some (st, [])
  | k + 1 =>
      match decodeNode st ln with
      | none => none
      | some (st1, v) =>
          match decodeRep st1 ln k with
          | none => none
          | some (st2, vs) => some (st2, v :: vs)

/-- The element loop of `unprepare$Array` (src/kvin.js 378-392): regular
elements decode and become the new `last`; a repeat marker expands `last`
without changing it. -/
def unprepArrGo (st : AState) (last : Option ANode) :
    List ANode → Except String (AState × List AVal)
  | [] => .ok (st, [])
  | .prim i :: rest =>
      match unprepArrGo st (some (.prim i)) rest with
      | .ok (st2, vs) => .ok (st2, .num i :: vs)
      | .error e => .error e
  | .rawNode id p :: rest =>
      match decodeNode st (.rawNode id p) with
      | none => .error "unreachable"
      | some (st1, v) =>
          match unprepArrGo st1 (some (.rawNode id p)) rest with
          | .ok (st2, vs) => .ok (st2, v :: vs)
          | .error e => .error e
  | .lst k :: rest =>
      match last with
      | none => .error "repeat marker without referent"
      | some ln =>
          match decodeRep st ln k with
          | none => .error "repeat marker referent invalid"
          | some (st1, vs) =>
              match unprepArrGo st1 (some ln) rest with
              | .ok (st2, vs2) => .ok (st2, vs ++ vs2)
              | .error e => .error e

/-- `unprepare$Array` from a fresh parse of the wire list. -/
def unprepArr (wire : List PNodeA) : Except String (AState × List AVal) :=
  unprepArrGo ⟨[], []⟩ none (parseWire 0 wire)

/-- `unprepare$Array(prepare$Array(els))` on this fragment. -/
def roundTripArr (els : List RawPayload) : Except String (AState × List AVal) :=
  unprepArr (prepArr els)

/-- Expanding a plain-object referent `k` times allocates `k` consecutive
fresh copies. -/
theorem decodeRep_obj (id : Nat) (fs : List (String × Int)) :
    ∀ (k : Nat) (st : AState),
      decodeRep st (.rawNode id (.obj fs)) k =
        some (⟨st.heap ++ List.replicate k (.obj fs), st.memo⟩,
          (List.range' st.heap.length k).map .ref) := by
  intro k
  induction k with
  | zero =>
      intro st
      simp [decodeRep]
  | succ k ih =>
      intro st
      have h1 : decodeNode st (.rawNode id (.obj fs)) =
          some (⟨st.heap ++ [.obj fs], st.memo⟩, .ref st.heap.length) := rfl
      rw [decodeRep, h1]
      simp only [ih]
      simp [List.range'_succ, List.replicate_succ, List.append_assoc]

end Arr

end Kvin

/-- C3: `unmarshal` fails with a descriptive error and constructs no value
when the envelope lacks the version field or carries an unsupported version
tag (the reconstruction function is never consulted there, which is why the
statement holds for every `unprep`), and accepts and reconstructs the
payload for every supported version tag, including the older `v4`-`v6`. -/
theorem C3_version_gate {α β : Type} (unprep : α → Except String β)
    (env : Kvin.Envelope α) :
    (env.verId = none →
      Kvin.unmarshal unprep env = .error "Invalid serialization format") ∧
    (∀ v, env.verId = some v → v ∉ Kvin.supportedVerIds →
      Kvin.unmarshal unprep env =
        .error ("Cannot unmarshal " ++ v ++ " objects - please update Kvin")) ∧
    (∀ v, env.verId = some v → v ∈ Kvin.supportedVerIds →
      Kvin.unmarshal unprep env = unprep env.what) := by
  refine ⟨fun h => ?_, fun v hv hmem => ?_, fun v hv hmem => ?_⟩
  · simp [Kvin.unmarshal, h]
  · simp [Kvin.unmarshal, hv, hmem]
  · simp [Kvin.unmarshal, hv, hmem]

/-- Witness for C3 at concrete envelopes: a missing version field fails, the
unknown tag `v3` fails with the descriptive message, and the older supported
tag `v4` is accepted and reconstructed. -/
theorem C3_version_gate_witness :
    Kvin.unmarshal (fun _ : Nat => Except.ok (0 : Nat)) ⟨none, 5⟩ =
      .error "Invalid serialization format" ∧
    Kvin.unmarshal (fun _ : Nat => Except.ok (0 : Nat)) ⟨some "v3", 5⟩ =
      .error "Cannot unmarshal v3 objects - please update Kvin" ∧
    Kvin.unmarshal (fun n : Nat => Except.ok n) ⟨some "v4", 5⟩ = Except.ok 5 :=
  ⟨(C3_version_gate _ _).1 rfl,
   (C3_version_gate _ _).2.1 "v3" rfl (by decide),
   (C3_version_gate (fun n : Nat => Except.ok n) ⟨some "v4", 5⟩).2.2 "v4" rfl (by decide)⟩

/-- C5 counterexample: the constructor-name string `"9"` fails the spec's
identifier pattern `^[A-Za-z_$][A-Za-z0-9_$]*$`, yet `unprepare` does not
throw on it: the code's validation pattern (src/kvin.js 222) also admits
digits in the first position, and `unprepare$object` then treats `"9"`
(matching `^[1-9][0-9]*$`) as an index into `ctors`, successfully
constructing a `Float64Array`. -/
theorem C5_ctr_digit_string_constructs :
    Kvin.Ctor.matchesSpecIdentRe "9" = false ∧
    Kvin.Ctor.unprepareC [] none (.ctrNode (.str "9") none []) =
      .ok (.obj "Float64Array" none []) := by
  constructor
  · rfl
  · rfl

/-- C5 amended: every `ctr` string failing the code's validation pattern
`^[A-Za-z_0-9$][A-Za-z_0-9$]*$` makes `unprepare` throw (whatever the
allowlist), and every numeric `ctr` outside `[0, ctors.length)` makes
`unprepare` throw; a digit-leading string that passes the code's pattern
may instead be accepted as a constructor-table index. -/
theorem C5_ctr_validation_amended (uc : List String)
    (al : Option (List String)) (arg : Option Kvin.Ctor.Lit)
    (ps : List (String × Kvin.Ctor.PNodeC)) :
    (∀ s, Kvin.Ctor.matchesCtorNameRe s = false →
      (Kvin.Ctor.unprepareC uc al (.ctrNode (.str s) arg ps)).isOk = false) ∧
    (∀ n, (Kvin.Ctor.jsGEZero n && Kvin.Ctor.jsLtNat n Kvin.Ctor.ctors.length) = false →
      (Kvin.Ctor.unprepareC uc al (.ctrNode (.num n) arg ps)).isOk = false) := by
  constructor
  · intro s hs
    rw [Kvin.Ctor.unprepareC]
    by_cases hal : al.isSome ∧ s ∉ al.getD []
    · simp [Kvin.Ctor.validateCtr, hs, hal, Except.isOk, Except.toBool, Bind.bind, Except.bind]
    · simp [Kvin.Ctor.validateCtr, hs, hal, Except.isOk, Except.toBool, Bind.bind, Except.bind]
  · intro n hn
    rw [Kvin.Ctor.unprepareC]
    simp [Kvin.Ctor.validateCtr, hn, Except.isOk, Except.toBool, Bind.bind, Except.bind]

/-- Witness for the amended C5 at concrete inputs: the name `"a-b"` fails
the code pattern and is rejected, and the numeric label `99` is out of
range and rejected. -/
theorem C5_ctr_validation_amended_witness :
    Kvin.Ctor.matchesCtorNameRe "a-b" = false ∧
    (Kvin.Ctor.unprepareC [] none (.ctrNode (.str "a-b") none [])).isOk = false ∧
    (Kvin.Ctor.jsGEZero (.fin 99) && Kvin.Ctor.jsLtNat (.fin 99) Kvin.Ctor.ctors.length) = false ∧
    (Kvin.Ctor.unprepareC [] none (.ctrNode (.num (.fin 99)) none [])).isOk = false :=
  ⟨by decide,
   (C5_ctr_validation_amended [] none none []).1 "a-b" (by decide),
   by decide,
   (C5_ctr_validation_amended [] none none []).2 (.fin 99) (by decide)⟩

/-- C6 failing input: under `tune = "size"`, a `Uint16Array` whose packed
string is ten `A`s followed by the lone high surrogate `0xD800` is encoded
as `ab16`, and the emitted payload contains an unpaired surrogate:
`notUnicode` inspects only adjacent pairs, so a lone surrogate at the end
of the string escapes detection and `prepare$ArrayBuffer16` is not
rejected, contradicting both the claim and the function's own
documentation ("returning null when we cannot guarantee that the UCS-2 is
also composed of valid UTF-16 code points"). -/
theorem C6_ab16_emits_unpaired_surrogate :
    Kvin.AB.prepare_ArrayBuffer (some "size") 8
      ⟨5, [0x41,0,0x41,0,0x41,0,0x41,0,0x41,0,0x41,0,0x41,0,0x41,0,0x41,0,0x41,0,0x00,0xD8],
          [65,65,65,65,65,65,65,65,65,65,55296]⟩ =
      .ab16 5 [65,65,65,65,65,65,65,65,65,65,0xD800] none ∧
    Kvin.AB.wellFormedUTF16 [65,65,65,65,65,65,65,65,65,65,0xD800] = false ∧
    Kvin.AB.notUnicode [65,65,65,65,65,65,65,65,65,65,0xD800] = false := by
  refine ⟨by decide, by decide, by decide⟩

/-- C7 failing input: with `tune` unset and a one-byte `Uint8Array` below
the pack threshold, the naive encoding's JSON is strictly shorter than the
ab8 encoding's JSON, yet `prepare$ArrayBuffer` returns ab8: the selection
compares `naive.length < ab8.length` on plain objects, both `undefined`,
so the comparison is always false and the naive form is never chosen —
contradicting the claim and the function's own doc comment ("try the naive
encoding if under typedArrayPackThreshold and use if smaller than ab8"). -/
theorem C7_default_tune_never_returns_naive :
    Kvin.AB.prepare_ArrayBuffer none 8 ⟨2, [1], [1]⟩ = .ab8 2 [1] ∧
    Kvin.AB.jsonLenAB (.naive 2 [1]) < Kvin.AB.jsonLenAB (.ab8 2 [1]) ∧
    Kvin.AB.undefinedLtUndefined = false := by
  refine ⟨by decide, by decide, rfl⟩

/-- C9 counterexample: `isPrimitiveLike(-0)` is `true`, not `false` as the
claim states — the classifier answers `Number.isFinite(o)` for numbers and
JavaScript considers `-0` finite. -/
theorem C9_negZero_is_primitive_like :
    Kvin.Graph.isPrimitiveLike 1 [] [] (.num .negZero) = some true := rfl

/-- C9 amended: the classifier returns `Number.isFinite` on numbers — true
for every finite number *including negative zero*, false for NaN and the
infinities; the non-finite values are encoded via the `number` sentinel tag
by `prepare$number`, while negative zero receives its `json` sentinel only
where `prepare$number` runs (top level and property positions), not from
the classifier. -/
theorem C9_classifier_isFinite_amended :
    (∀ (fuel : Nat) (H : Kvin.Graph.Heap) (seen : List Kvin.Graph.Addr) (n : Kvin.JSNum),
      Kvin.Graph.isPrimitiveLike (fuel + 1) H seen (.num n) = some (Kvin.jsIsFinite n)) ∧
    Kvin.jsIsFinite .negZero = true ∧
    Kvin.prepare_number .nan = .number "NaN" ∧
    Kvin.prepare_number .inf = .number "Infinity" ∧
    Kvin.prepare_number .ninf = .number "-Infinity" ∧
    Kvin.prepare_number .negZero = .json "-0" := by
  refine ⟨fun fuel H seen n => rfl, rfl, rfl, rfl, rfl, rfl⟩

/-- C10 counterexample: a single mutable object (the primitive-like
`x = a: 1` at address 0) reachable along the two paths `.p` and `.q` of
the root is *not* reconstructed as one shared object: the whole root is
primitive-like, so `prepare` raw-encodes it without any visited-table
entry, the JSON text duplicates `x` per occurrence, and the decoder
materializes two distinct objects (addresses 0 and 1) where the input had
one. -/
theorem C10_shared_primitive_like_object_duplicated :
    (Kvin.Graph.marshalG 10
        [[("a", .num (.fin 1))], [("p", .ref 0), ("q", .ref 0)]] (.ref 1)).map
        Kvin.Graph.deserializeG =
      some (.ok ([[("a", .num (.fin 1))], [("a", .num (.fin 1))],
                  [("p", .ref 0), ("q", .ref 1)]], .ref 2)) ∧
    ([("p", Kvin.Graph.V.ref 0), ("q", Kvin.Graph.V.ref 0)].lookup "p" =
      [("p", Kvin.Graph.V.ref 0), ("q", Kvin.Graph.V.ref 0)].lookup "q") ∧
    ([("p", Kvin.Graph.V.ref 0), ("q", Kvin.Graph.V.ref 1)].lookup "p" ≠
      [("p", Kvin.Graph.V.ref 0), ("q", Kvin.Graph.V.ref 1)].lookup "q") := by
  refine ⟨rfl, rfl, by decide⟩

/-- C4: NaN, Infinity, -Infinity and negative zero round-trip exactly
through `deserialize(serialize(x))` (the reconstructed negative zero is the
unique number whose reciprocal is `-Infinity`), and every bigint — in
particular any integer beyond safe-integer range — round-trips to the exact
same integer of bigint type. -/
theorem C4_numeric_edge_cases_round_trip :
    Kvin.roundTripScalar (.num .nan) = .ok (.num .nan) ∧
    Kvin.roundTripScalar (.num .inf) = .ok (.num .inf) ∧
    Kvin.roundTripScalar (.num .ninf) = .ok (.num .ninf) ∧
    (Kvin.roundTripScalar (.num .negZero) = .ok (.num .negZero) ∧
      Kvin.jsRecipIsNegInf .negZero = true) ∧
    ∀ i : Int, Kvin.roundTripScalar (.big i) = .ok (.big i) := by
  refine ⟨rfl, rfl, rfl, ⟨rfl, rfl⟩, fun i => ?_⟩
  simp only [Kvin.roundTripScalar, Kvin.marshalScalar, Kvin.unmarshal, Kvin.prepareScalar,
    Kvin.prepare_bigint, Kvin.unprepareScalar, Kvin.serializeVerId, Kvin.supportedVerIds,
    Kvin.parseBigInt_bigintToString, List.mem_cons, List.mem_singleton]
  rfl

/-- C1: every plain object with a self-referential property round-trips to
a true reference cycle: if the object at address `a` carries the property
`("bar", ref a)` pointing back to itself and `prepare` accepts the graph,
then decoding the prepared node yields a root reference `b` whose decoded
object again carries `("bar", ref b)` — `result.bar === result` (hence
`result.bar.bar.bar === result`), a cycle, not an unfolded copy. -/
theorem C1_self_reference_round_trips (H : Kvin.Graph.Heap)
    (hwf : Kvin.Graph.heapWF H) (fuel : Nat) (a : Kvin.Graph.Addr)
    (E1 : List Kvin.Graph.Addr) (pn : Kvin.Graph.PNode)
    (hbar : ("bar", Kvin.Graph.V.ref a) ∈ H.getD a [])
    (henc : Kvin.Graph.prepare fuel H [] (.ref a) = some (E1, pn)) :
    ∃ st1 b, Kvin.Graph.unprepare ⟨[], []⟩ pn = .ok (st1, .ref b) ∧
      ("bar", Kvin.Graph.V.ref b) ∈ st1.heap.getD b [] := by
  obtain ⟨st1, vD, hok, hlen, hnpl1, hfr, hent⟩ :=
    Kvin.Graph.prepare_sim H hwf fuel (.ref a) E1 pn henc
  have hnp : ¬ Kvin.Graph.PLtrueV H (.ref a) :=
    Kvin.Graph.not_PLtrueV_self_ref ⟨"bar", hbar⟩
  have haE : a ∈ E1 := by
    by_contra hna
    exact hnp (hfr.2 hna)
  have hilt : E1.indexOf a < E1.length := List.indexOf_lt_length.mpr haE
  obtain ⟨a', b, hEget, hSget, _, hblt, hfa⟩ := hent (E1.indexOf a) hilt
  have haa : a' = a := by
    have h0 := Kvin.Graph.get?_indexOf haE
    rw [hEget] at h0
    exact Option.some.inj h0
  subst haa
  have hvD : vD = .ref b := by
    rw [hfr.1 haE]
    exact Kvin.Graph.seen_getD_of_get? hSget
  subst hvD
  obtain ⟨g, hgmem, hgR⟩ := Kvin.Graph.forall2_mem_left hfa hbar
  have hg2 : g.2 = Kvin.Graph.V.ref b := by
    rw [hgR.2.1 haE]
    exact Kvin.Graph.seen_getD_of_get? hSget
  have hgfull : g = ("bar", Kvin.Graph.V.ref b) := Prod.ext hgR.1 hg2
  exact ⟨st1, b, hok, hgfull ▸ hgmem⟩

/-- Witness for C1 at the concrete cycle `v = {foo: 1}; v.bar = v`. -/
theorem C1_self_reference_round_trips_witness :
    Kvin.Graph.heapWF Kvin.Graph.Hcyc ∧
    ("bar", Kvin.Graph.V.ref 0) ∈ Kvin.Graph.Hcyc.getD 0 [] ∧
    Kvin.Graph.prepare 4 Kvin.Graph.Hcyc [] (.ref 0) =
      some ([0], Kvin.Graph.pnCyc) ∧
    (∃ st1 b, Kvin.Graph.unprepare ⟨[], []⟩ Kvin.Graph.pnCyc =
        .ok (st1, .ref b) ∧
      ("bar", Kvin.Graph.V.ref b) ∈ st1.heap.getD b []) :=
  ⟨Kvin.Graph.Hcyc_wf,
   List.mem_cons_of_mem _ (List.mem_singleton.mpr rfl),
   rfl,
   C1_self_reference_round_trips Kvin.Graph.Hcyc Kvin.Graph.Hcyc_wf 4 0 [0]
     Kvin.Graph.pnCyc (List.mem_cons_of_mem _ (List.mem_singleton.mpr rfl))
     rfl⟩

/-- C2: the decode-side visited table is appended to in exactly the same
relative order as the encode-side table: decoding what `prepare` produced
succeeds, the two tables have equal length, and each index holds a fresh
reference to the reconstruction of the very object the encoder recorded
at that index — keys in source order and every captured reference
resolved through the same table, the object having been entered in the
table before its properties were decoded, so back references (including
self references on the node being built) resolve purely by index. -/
theorem C2_visited_tables_parallel (H : Kvin.Graph.Heap)
    (hwf : Kvin.Graph.heapWF H) (fuel : Nat) (v : Kvin.Graph.V)
    (E1 : List Kvin.Graph.Addr) (pn : Kvin.Graph.PNode)
    (henc : Kvin.Graph.prepare fuel H [] v = some (E1, pn)) :
    ∃ st1 vD, Kvin.Graph.unprepare ⟨[], []⟩ pn = .ok (st1, vD) ∧
      st1.seen.length = E1.length ∧
      ∀ i, i < E1.length → Kvin.Graph.entryCorr H E1 st1 0 i := by
  obtain ⟨st1, vD, hok, hlen, _, _, hent⟩ :=
    Kvin.Graph.prepare_sim H hwf fuel v E1 pn henc
  exact ⟨st1, vD, hok, hlen, hent⟩

/-- Witness for C2 at the concrete sharing graph over `Hshare`. -/
theorem C2_visited_tables_parallel_witness :
    Kvin.Graph.heapWF Kvin.Graph.Hshare ∧
    Kvin.Graph.prepare 6 Kvin.Graph.Hshare [] (.ref 1) =
      some ([1, 0], Kvin.Graph.pnShare) ∧
    (∃ st1 vD, Kvin.Graph.unprepare ⟨[], []⟩ Kvin.Graph.pnShare =
        .ok (st1, vD) ∧
      st1.seen.length = [1, 0].length ∧
      ∀ i, i < [1, 0].length →
        Kvin.Graph.entryCorr Kvin.Graph.Hshare [1, 0] st1 0 i) :=
  ⟨Kvin.Graph.Hshare_wf,
   rfl,
   C2_visited_tables_parallel Kvin.Graph.Hshare Kvin.Graph.Hshare_wf 6
     (.ref 1) [1, 0] Kvin.Graph.pnShare rfl⟩

/-- C10 amended: sharing *is* preserved for objects that enter the visited
table. Whenever one object `c` of the source heap is referenced from two
captured properties (possibly of different visited objects, possibly the
same) and `c` was recorded in the encode visited table, the two decoded
properties hold a reference to one and the same decoded address `bs`:
every path to a visited shared object leads to the same reconstruction.
(Primitive-like shared objects never enter the table and are duplicated —
see the counterexample.) -/
theorem C10_sharing_preserved_for_visited (H : Kvin.Graph.Heap)
    (hwf : Kvin.Graph.heapWF H) (fuel : Nat) (v : Kvin.Graph.V)
    (E1 : List Kvin.Graph.Addr) (pn : Kvin.Graph.PNode)
    (henc : Kvin.Graph.prepare fuel H [] v = some (E1, pn))
    (i1 i2 : Nat) (a1 a2 c : Kvin.Graph.Addr) (k1 k2 : String)
    (hA1 : E1.get? i1 = some a1) (hA2 : E1.get? i2 = some a2)
    (hf1 : (k1, Kvin.Graph.V.ref c) ∈ H.getD a1 [])
    (hf2 : (k2, Kvin.Graph.V.ref c) ∈ H.getD a2 [])
    (hcE : c ∈ E1) :
    ∃ st1 vD b1 b2 bs,
      Kvin.Graph.unprepare ⟨[], []⟩ pn = .ok (st1, vD) ∧
      st1.seen.get? i1 = some (.ref b1) ∧
      st1.seen.get? i2 = some (.ref b2) ∧
      (k1, Kvin.Graph.V.ref bs) ∈ st1.heap.getD b1 [] ∧
      (k2, Kvin.Graph.V.ref bs) ∈ st1.heap.getD b2 [] := by
  obtain ⟨st1, vD, hok, hlen, _, _, hent⟩ :=
    Kvin.Graph.prepare_sim H hwf fuel v E1 pn henc
  have hi1 : i1 < E1.length := Kvin.Graph.get?_some_lt hA1
  have hi2 : i2 < E1.length := Kvin.Graph.get?_some_lt hA2
  obtain ⟨a1', b1, hg1, hs1, _, _, hfa1⟩ := hent i1 hi1
  obtain ⟨a2', b2, hg2, hs2, _, _, hfa2⟩ := hent i2 hi2
  have ha1 : a1' = a1 := by
    rw [hg1] at hA1
    exact Option.some.inj hA1
  subst ha1
  have ha2 : a2' = a2 := by
    rw [hg2] at hA2
    exact Option.some.inj hA2
  subst ha2
  have hclt : E1.indexOf c < E1.length := List.indexOf_lt_length.mpr hcE
  obtain ⟨c', bs, hgc, hsc, _, _, _⟩ := hent (E1.indexOf c) hclt
  have hw : st1.seen.getD (E1.indexOf c) .undef = .ref bs :=
    Kvin.Graph.seen_getD_of_get? hsc
  obtain ⟨g1, hg1mem, hg1R⟩ := Kvin.Graph.forall2_mem_left hfa1 hf1
  obtain ⟨g2, hg2mem, hg2R⟩ := Kvin.Graph.forall2_mem_left hfa2 hf2
  have hg1v : g1 = (k1, Kvin.Graph.V.ref bs) :=
    Prod.ext hg1R.1 (by rw [hg1R.2.1 hcE, hw])
  have hg2v : g2 = (k2, Kvin.Graph.V.ref bs) :=
    Prod.ext hg2R.1 (by rw [hg2R.2.1 hcE, hw])
  exact ⟨st1, vD, b1, b2, bs, hok, hs1, hs2, hg1v ▸ hg1mem, hg2v ▸ hg2mem⟩

/-- Witness for the amended C10 at the concrete sharing graph: the root's
two properties `p` and `q` both reference the visited object at encode
index 1, and after decoding both hold the same address. -/
theorem C10_sharing_preserved_for_visited_witness :
    Kvin.Graph.heapWF Kvin.Graph.Hshare ∧
    Kvin.Graph.prepare 6 Kvin.Graph.Hshare [] (.ref 1) =
      some ([1, 0], Kvin.Graph.pnShare) ∧
    ("p", Kvin.Graph.V.ref 0) ∈ Kvin.Graph.Hshare.getD 1 [] ∧
    ("q", Kvin.Graph.V.ref 0) ∈ Kvin.Graph.Hshare.getD 1 [] ∧
    (∃ st1 vD b1 b2 bs,
      Kvin.Graph.unprepare ⟨[], []⟩ Kvin.Graph.pnShare = .ok (st1, vD) ∧
      st1.seen.get? 0 = some (.ref b1) ∧
      st1.seen.get? 0 = some (.ref b2) ∧
      ("p", Kvin.Graph.V.ref bs) ∈ st1.heap.getD b1 [] ∧
      ("q", Kvin.Graph.V.ref bs) ∈ st1.heap.getD b2 []) :=
  ⟨Kvin.Graph.Hshare_wf,
   rfl,
   List.mem_cons_self _ _,
   List.mem_cons_of_mem _ (List.mem_singleton.mpr rfl),
   C10_sharing_preserved_for_visited Kvin.Graph.Hshare Kvin.Graph.Hshare_wf
     6 (.ref 1) [1, 0] Kvin.Graph.pnShare rfl 0 0 1 1 0 "p" "q" rfl rfl
     (List.mem_cons_self _ _)
     (List.mem_cons_of_mem _ (List.mem_singleton.mpr rfl))
     (by decide)⟩

/-- C8 counterexample: the claim fails for array-valued referents.  The
source array `[[1], [1]]` (two structurally equal arrays of primitives)
is run-length compressed to `[{raw: [1]}, {lst: 1}]`; decoding the `raw`
node whose payload is an array executes `return po.raw`, so the repeat
expansion pushes the very same parsed array again: both decoded slots
hold one shared object (address 0), aliases rather than independent
copies. -/
theorem C8_lst_array_referent_aliased :
    Kvin.Arr.prepArr [.arr [1], .arr [1]] = [.raw (.arr [1]), .lst 1] ∧
    Kvin.Arr.roundTripArr [.arr [1], .arr [1]] =
      .ok (⟨[.arr [1]], [(0, 0)]⟩, [.ref 0, .ref 0]) ∧
    ¬ ([Kvin.Arr.AVal.ref 0, .ref 0].Pairwise (fun x y => x ≠ y)) :=
  ⟨rfl, rfl, by decide⟩

/-- C8 amended: the repeat expansion materializes independent copies for
*plain-object* referents: expanding `{lst: k}` whose remembered referent
is a `raw` node with a plain-object payload allocates `k` consecutive
fresh addresses — pairwise distinct, none aliasing an existing object —
each holding a structurally equal copy of the payload.  (Array-valued
referents are aliased instead; see the counterexample.) -/
theorem C8_lst_object_referent_fresh_copies (st : Kvin.Arr.AState)
    (id : Nat) (fs : List (String × Int)) (k : Nat) :
    ∃ st', Kvin.Arr.decodeRep st (.rawNode id (.obj fs)) k =
        some (st', (List.range' st.heap.length k).map .ref) ∧
      (List.range' st.heap.length k).Nodup ∧
      (List.range' st.heap.length k).length = k ∧
      ∀ a ∈ List.range' st.heap.length k,
        st.heap.length ≤ a ∧ st'.heap.get? a = some (.obj fs) := by
  refine ⟨⟨st.heap ++ List.replicate k (.obj fs), st.memo⟩,
    Kvin.Arr.decodeRep_obj id fs k st, List.nodup_range' _ _, by simp, ?_⟩
  intro a ha
  obtain ⟨hle, hlt⟩ := List.mem_range'_1.mp ha
  refine ⟨hle, ?_⟩
  show (st.heap ++ List.replicate k (Kvin.Arr.RawPayload.obj fs)).get? a =
    some (Kvin.Arr.RawPayload.obj fs)
  rw [List.get?_eq_getElem?, List.getElem?_append_right hle,
    List.getElem?_replicate]
  rw [if_pos (by omega)]
